import Mathlib

/-!
# Verification of the tuicr virtual diff-document engine

This development shallowly embeds the cursor/scroll/comment engine of the
`tuicr` repository (`src/app.rs`) and settles the frozen claims about it.

The repository's `model` module (the data types `DiffLine`, `Hunk`,
`DiffFile`, `Comment`, `FileReview`, `ReviewSession` and their small
helper methods) is not present under `src/`; those definitions are
modelled from the specification (§3, §4.3) and from their use sites in
`src/app.rs`, `src/ui/app_layout.rs` and `src/output/markdown.rs`.
Everything else is translated directly from `src/app.rs`.

Machine integers (`usize`) are modelled as `Nat`; Rust's
`saturating_sub` is `Nat` subtraction, and the few `usize` additions
involved stay far below overflow for the states considered, so plain
`Nat` addition is used.  Rust strings are modelled as `String`, with the
character-level `split('\n')` modelled on `String.toList`.
-/

namespace Tuicr

/-- Modelled from the spec: `Side` of a line comment, `{Old, New}` (§3). -/
inductive LineSide where
  | Old
  | New
deriving DecidableEq, Repr

/-- Modelled from the spec: origin of a diff line, `{Addition, Deletion, Context}` (§3). -/
inductive LineOrigin where
  | Addition
  | Deletion
  | Context
deriving DecidableEq, Repr

/-- Modelled from the spec: comment type `{Note, Suggestion, Issue, Praise}` (§3). -/
inductive CommentType where
  | Note
  | Suggestion
  | Issue
  | Praise
deriving DecidableEq, Repr

/-- Modelled from the spec: file status `{Added, Modified, Deleted, Renamed, ...}` (§3). -/
inductive FileStatus where
  | Added
  | Modified
  | Deleted
  | Renamed
  | Untracked
deriving DecidableEq, Repr

/-- Modelled from the spec: a `DiffLine` carries an origin, an optional old
line number, an optional new line number, and text (§3).  Line numbers are
`u32` in the source, modelled as `Nat`. -/
structure DiffLine where
  origin : LineOrigin
  old_lineno : Option Nat
  new_lineno : Option Nat
  content : String
deriving DecidableEq, Repr

/-- Modelled from the spec: a `Hunk` is a header plus an ordered sequence of
diff lines (§3). -/
structure Hunk where
  header : String
  lines : List DiffLine
deriving DecidableEq, Repr

/-- Modelled from the spec: a `DiffFile` has a path (its display path, the
identity key), a status, a binary flag and an ordered sequence of hunks
(§3).  `display_path()` in the source returns this path. -/
structure DiffFile where
  path : String
  status : FileStatus
  is_binary : Bool
  hunks : List Hunk
deriving DecidableEq, Repr

/-- Modelled from the spec: a `Comment` is content text, a type, and an
optional side, present only for line comments (§3). -/
structure Comment where
  content : String
  comment_type : CommentType
  side : Option LineSide
deriving DecidableEq, Repr

/-- Modelled from the spec: per-file review state — reviewed flag, ordered
file-level comments, and a mapping from source line number to the ordered
list of line comments (§3).  The mapping is modelled as an association
list. -/
structure FileReview where
  reviewed : Bool
  file_comments : List Comment
  line_comments : List (Nat × List Comment)
deriving DecidableEq, Repr

/-- Modelled from the spec: the default review state a path receives the
first time it is seen (§3: created lazily, not reviewed, no comments). -/
def FileReview.init : FileReview :=
  { reviewed := false, file_comments := [], line_comments := [] }

/-- Modelled from the spec: a `ReviewSession` maps paths to `FileReview`
values (§3).  The base revision and free-text summary play no role in any
claim and are omitted.  The mapping is modelled as an association list. -/
structure ReviewSession where
  files : List (String × FileReview)
deriving DecidableEq, Repr

/-! ## Association-list helpers (the maps of the modelled `model` module) -/

/-- Lookup in an association list (first matching key). -/
def alookup {α β : Type} [DecidableEq α] (k : α) : List (α × β) → Option β
  | [] => none
  | (k₁, v) :: rest => if k₁ = k then some v else alookup k rest

/-- Apply `f` to the value at the first occurrence of key `k`. -/
def aupdate {α β : Type} [DecidableEq α] (k : α) (f : β → β) : List (α × β) → List (α × β)
  | [] => []
  | (k₁, v) :: rest => if k₁ = k then (k₁, f v) :: rest else (k₁, v) :: aupdate k f rest

/-- Remove the first occurrence of key `k`. -/
def aremove {α β : Type} [DecidableEq α] (k : α) : List (α × β) → List (α × β)
  | [] => []
  | (k₁, v) :: rest => if k₁ = k then rest else (k₁, v) :: aremove k rest

/-- Modelled from the spec: whether the file at `path` is marked reviewed;
absent paths count as not reviewed (used as
`files.get(path).map(|r| r.reviewed).unwrap_or(false)` in
`src/ui/app_layout.rs`). -/
def ReviewSession.is_file_reviewed (s : ReviewSession) (path : String) : Bool :=
  match alookup path s.files with
  | some r => r.reviewed
  | none => false

/-- Modelled from the spec: ingesting a path creates its `FileReview` lazily
the first time the path is seen and preserves an existing entry (§3). -/
def ReviewSession.add_file (s : ReviewSession) (path : String) (_status : FileStatus) :
    ReviewSession :=
  match alookup path s.files with
  | some _ => s
  | none => { files := s.files ++ [(path, FileReview.init)] }

/-- Modelled from the spec: `add_file_comment` appends to the ordered
file-comment sequence (§4.3). -/
def FileReview.add_file_comment (r : FileReview) (c : Comment) : FileReview :=
  { r with file_comments := r.file_comments ++ [c] }

/-- Modelled from the spec: `add_line_comment` appends to the per-line list
keyed by source line number, creating the list if absent (§4.3). -/
def FileReview.add_line_comment (r : FileReview) (line : Nat) (c : Comment) : FileReview :=
  match alookup line r.line_comments with
  | some _ => { r with line_comments := aupdate line (fun cs => cs ++ [c]) r.line_comments }
  | none => { r with line_comments := r.line_comments ++ [(line, [c])] }

/-! ## The controller state (`App` of `src/app.rs`)

Only the fields the claims are about are kept: the diff state, the file-list
selection, the session, the diff files, the dirty flag and the message.
Input modes, buffers and the quit flag play no role in any claim. -/

/-- `DiffState` from `src/app.rs`. -/
structure DiffState where
  scroll_offset : Nat
  scroll_x : Nat
  cursor_line : Nat
  current_file_idx : Nat
  viewport_height : Nat
deriving DecidableEq, Repr

/-- The controller (`App` of `src/app.rs`), restricted to the fields the
claims mention. -/
structure App where
  session : ReviewSession
  diff_files : List DiffFile
  diff_state : DiffState
  file_list_selected : Nat
  dirty : Bool
  message : Option String
deriving DecidableEq, Repr

/-! ## The virtual line index (`src/app.rs`) -/

/-- `file_render_height` (src/app.rs:452-463): 1 if reviewed, else
`2 + max(Σ (hunk.lines.len() + 1), 1)`. -/
def file_render_height (s : ReviewSession) (f : DiffFile) : Nat :=
  if s.is_file_reviewed f.path then 1
  else 2 + max ((f.hunks.map (fun h => h.lines.length + 1)).sum) 1

/-- `calculate_file_scroll_offset` (src/app.rs:441-450): sum of render
heights of the files preceding `file_idx`. -/
def calculate_file_scroll_offset (s : ReviewSession) (files : List DiffFile) (file_idx : Nat) :
    Nat :=
  ((files.take file_idx).map (file_render_height s)).sum

/-- `total_lines` (src/app.rs:482-487). -/
def total_lines (s : ReviewSession) (files : List DiffFile) : Nat :=
  (files.map (file_render_height s)).sum

/-- Character-level split on a separator, mirroring Rust's
`str::split('\n')` item count (an empty string yields one item). -/
def splitChar (sep : Char) : List Char → List (List Char)
  | [] => [[]]
  | c :: rest =>
    if c = sep then [] :: splitChar sep rest
    else
      match splitChar sep rest with
      | l :: ls => (c :: l) :: ls
      | [] => [[c]]

/-- `comment_display_lines` (src/app.rs:490-493):
`2 + content.split('\n').count()` (header + content lines + footer). -/
def comment_display_lines (c : Comment) : Nat :=
  2 + (splitChar '\n' c.content.toList).length

/-- Total display height of a list of comment blocks. -/
def commentsHeight (cs : List Comment) : Nat :=
  (cs.map comment_display_lines).sum

/-- The file comments stored for `path` (empty when absent). -/
def fileCommentsOf (s : ReviewSession) (path : String) : List Comment :=
  match alookup path s.files with
  | some r => r.file_comments
  | none => []

/-- The line-comment map stored for `path` (empty when absent). -/
def lineCommentsOf (s : ReviewSession) (path : String) : List (Nat × List Comment) :=
  match alookup path s.files with
  | some r => r.line_comments
  | none => []

/-- The old-side comments rendered directly after diff line `d` (src/app.rs
walk: comments stored at `d.old_lineno` whose side is `Some(Old)`). -/
def oldSideComments (lc : List (Nat × List Comment)) (d : DiffLine) : List Comment :=
  match d.old_lineno with
  | some ln => ((alookup ln lc).getD []).filter (fun c => c.side = some LineSide.Old)
  | none => []

/-- The new-side comments rendered after diff line `d` (src/app.rs walk:
comments stored at `d.new_lineno` whose side is not `Some(Old)`). -/
def newSideComments (lc : List (Nat × List Comment)) (d : DiffLine) : List Comment :=
  match d.new_lineno with
  | some ln => ((alookup ln lc).getD []).filter (fun c => ¬ (c.side = some LineSide.Old))
  | none => []

/-! ## Navigation operations (`src/app.rs`) -/

/-- `current_file` (src/app.rs:217-219). -/
def App.current_file (a : App) : Option DiffFile :=
  a.diff_files.get? a.diff_state.current_file_idx

/-- The loop of `update_current_file_from_cursor` (src/app.rs:465-480):
the first file index whose cumulative span strictly contains the cursor. -/
def findFileIdx (s : ReviewSession) (cursor : Nat) : List DiffFile → Nat → Nat → Option Nat
  | [], _, _ => none
  | f :: rest, i, cum =>
    if cursor < cum + file_render_height s f then some i
    else findFileIdx s cursor rest (i + 1) (cum + file_render_height s f)

/-- `update_current_file_from_cursor` (src/app.rs:465-480). -/
def App.update_current_file_from_cursor (a : App) : App :=
  match findFileIdx a.session a.diff_state.cursor_line a.diff_files 0 0 with
  | some i =>
    { a with diff_state := { a.diff_state with current_file_idx := i }, file_list_selected := i }
  | none =>
    if a.diff_files.isEmpty then a
    else
      { a with
        diff_state := { a.diff_state with current_file_idx := a.diff_files.length - 1 },
        file_list_selected := a.diff_files.length - 1 }

/-- `ensure_cursor_visible` (src/app.rs:307-317): scroll up to the cursor if
it is above the viewport; scroll down so it is the last visible line if it
is below. -/
def App.ensure_cursor_visible (a : App) : App :=
  let viewport := max a.diff_state.viewport_height 1
  let so₁ :=
    if a.diff_state.cursor_line < a.diff_state.scroll_offset then a.diff_state.cursor_line
    else a.diff_state.scroll_offset
  let so₂ :=
    if so₁ + viewport ≤ a.diff_state.cursor_line then a.diff_state.cursor_line - viewport + 1
    else so₁
  { a with diff_state := { a.diff_state with scroll_offset := so₂ } }

/-- `cursor_down` (src/app.rs:269-274). -/
def App.cursor_down (a : App) (lines : Nat) : App :=
  let max_line := total_lines a.session a.diff_files - 1
  let a := { a with diff_state :=
    { a.diff_state with cursor_line := min (a.diff_state.cursor_line + lines) max_line } }
  a.ensure_cursor_visible.update_current_file_from_cursor

/-- `cursor_up` (src/app.rs:276-280). -/
def App.cursor_up (a : App) (lines : Nat) : App :=
  let a := { a with diff_state :=
    { a.diff_state with cursor_line := a.diff_state.cursor_line - lines } }
  a.ensure_cursor_visible.update_current_file_from_cursor

/-- `scroll_down` (src/app.rs:282-289): move both cursor and scroll. -/
def App.scroll_down (a : App) (lines : Nat) : App :=
  let max_line := total_lines a.session a.diff_files - 1
  let a := { a with diff_state :=
    { a.diff_state with
      cursor_line := min (a.diff_state.cursor_line + lines) max_line,
      scroll_offset := min (a.diff_state.scroll_offset + lines) max_line } }
  a.ensure_cursor_visible.update_current_file_from_cursor

/-- `scroll_up` (src/app.rs:291-297). -/
def App.scroll_up (a : App) (lines : Nat) : App :=
  let a := { a with diff_state :=
    { a.diff_state with
      cursor_line := a.diff_state.cursor_line - lines,
      scroll_offset := a.diff_state.scroll_offset - lines } }
  a.ensure_cursor_visible.update_current_file_from_cursor

/-- `scroll_left` (src/app.rs:299-301). -/
def App.scroll_left (a : App) (cols : Nat) : App :=
  { a with diff_state := { a.diff_state with scroll_x := a.diff_state.scroll_x - cols } }

/-- `scroll_right` (src/app.rs:303-305). -/
def App.scroll_right (a : App) (cols : Nat) : App :=
  { a with diff_state := { a.diff_state with scroll_x := a.diff_state.scroll_x + cols } }

/-- `center_cursor` (src/app.rs:319-323). -/
def App.center_cursor (a : App) : App :=
  let viewport := max a.diff_state.viewport_height 1
  { a with diff_state :=
    { a.diff_state with scroll_offset := a.diff_state.cursor_line - viewport / 2 } }

/-- `jump_to_file` (src/app.rs:336-343): no-op when the index is out of
range; otherwise put the file header at cursor and at the top of the
viewport. -/
def App.jump_to_file (a : App) (idx : Nat) : App :=
  if idx < a.diff_files.length then
    let cl := calculate_file_scroll_offset a.session a.diff_files idx
    { a with
      diff_state :=
        { a.diff_state with current_file_idx := idx, cursor_line := cl, scroll_offset := cl },
      file_list_selected := idx }
  else a

/-- `next_file` (src/app.rs:345-349). -/
def App.next_file (a : App) : App :=
  a.jump_to_file (min (a.diff_state.current_file_idx + 1) (a.diff_files.length - 1))

/-- `prev_file` (src/app.rs:351-354). -/
def App.prev_file (a : App) : App :=
  a.jump_to_file (a.diff_state.current_file_idx - 1)

/-- `toggle_reviewed` (src/app.rs:225-244): flip the current file's flag in
the session, mark dirty, move the cursor to the file header and restore
viewport containment.  No-op when there is no current file or its path is
not in the session. -/
def App.toggle_reviewed (a : App) : App :=
  match a.current_file with
  | none => a
  | some f =>
    match alookup f.path a.session.files with
    | none => a
    | some _ =>
      let session : ReviewSession :=
        ⟨aupdate f.path (fun r => { r with reviewed := !r.reviewed }) a.session.files⟩
      let a := { a with session := session, dirty := true }
      let header := calculate_file_scroll_offset a.session a.diff_files
        a.diff_state.current_file_idx
      let a := { a with diff_state := { a.diff_state with cursor_line := header } }
      a.ensure_cursor_visible

/-! ## Hunk navigation (`src/app.rs:356-439`)

`next_hunk` and `prev_hunk` walk the files with the same cumulative
accounting: 1 line per file header, nothing else for reviewed files,
`file_comments.len()` lines for the file comments, 1 placeholder line for
binary/hunk-less files, and per hunk a header line (the candidate
position) plus its diff lines, then 1 spacing line.  `next_hunk` takes the
first candidate strictly after the cursor (its early `return`); `prev_hunk`
collects all candidates and takes the last one strictly before the cursor,
or position 0 when none exists. -/

/-- Candidate hunk-header positions contributed by one file, plus the
cumulative height after the file, exactly as accumulated by
`next_hunk`/`prev_hunk`. -/
def filePositions (s : ReviewSession) (f : DiffFile) (cum : Nat) : List Nat × Nat :=
  let cum := cum + 1
  if s.is_file_reviewed f.path then ([], cum)
  else
    let cum := cum + (match alookup f.path s.files with
      | some r => r.file_comments.length
      | none => 0)
    if f.is_binary || f.hunks.isEmpty then ([], cum + 1 + 1)
    else
      let step := f.hunks.foldl
        (fun (acc : List Nat × Nat) h => (acc.1 ++ [acc.2], acc.2 + 1 + h.lines.length))
        ([], cum)
      (step.1, step.2 + 1)

/-- All candidate hunk-header positions in walk order. -/
def hunkPositionsAux (s : ReviewSession) : List DiffFile → Nat → List Nat
  | [], _ => []
  | f :: rest, cum =>
    let step := filePositions s f cum
    step.1 ++ hunkPositionsAux s rest step.2

/-- The hunk-header positions scanned by `next_hunk`/`prev_hunk`. -/
def hunkPositions (a : App) : List Nat :=
  hunkPositionsAux a.session a.diff_files 0

/-- `next_hunk` (src/app.rs:356-392). -/
def App.next_hunk (a : App) : App :=
  match (hunkPositions a).find? (fun p => decide (a.diff_state.cursor_line < p)) with
  | some p =>
    let a := { a with diff_state := { a.diff_state with cursor_line := p } }
    a.ensure_cursor_visible.update_current_file_from_cursor
  | none => a

/-- `prev_hunk` (src/app.rs:394-439). -/
def App.prev_hunk (a : App) : App :=
  match (hunkPositions a).reverse.find? (fun p => decide (p < a.diff_state.cursor_line)) with
  | some p =>
    let a := { a with diff_state := { a.diff_state with cursor_line := p } }
    a.ensure_cursor_visible.update_current_file_from_cursor
  | none =>
    let a := { a with diff_state := { a.diff_state with cursor_line := 0 } }
    a.ensure_cursor_visible.update_current_file_from_cursor

/-! ## `get_line_at_cursor` (src/app.rs:496-578)

The source walks the flattened space with a mutable `line_idx` and returns
from inside the loop the moment the cursor is found on a diff line.  The
walk is translated with an explicit sum type: `Sum.inl r` models the early
`return r` (`r` may be `none` when the diff line carries no line number),
`Sum.inr idx` models falling through with the accumulated index. -/

/-- Resolution of a diff line under the cursor (src/app.rs:540-543):
`new_lineno.map(New).or_else(old_lineno.map(Old))`. -/
def resolveLine (d : DiffLine) : Option (Nat × LineSide) :=
  match d.new_lineno with
  | some ln => some (ln, LineSide.New)
  | none =>
    match d.old_lineno with
    | some ln => some (ln, LineSide.Old)
    | none => none

/-- The inner diff-line loop of `get_line_at_cursor`: check the diff line,
then skip its old-side and new-side comment blocks. -/
def glacLines (target : Nat) (lc : List (Nat × List Comment)) :
    List DiffLine → Nat → Option (Nat × LineSide) ⊕ Nat
  | [], idx => Sum.inr idx
  | d :: rest, idx =>
    if idx = target then Sum.inl (resolveLine d)
    else
      glacLines target lc rest
        (idx + 1 + commentsHeight (oldSideComments lc d) + commentsHeight (newSideComments lc d))

/-- The hunk loop of `get_line_at_cursor`: a header line, then the diff
lines. -/
def glacHunks (target : Nat) (lc : List (Nat × List Comment)) :
    List Hunk → Nat → Option (Nat × LineSide) ⊕ Nat
  | [], idx => Sum.inr idx
  | h :: rest, idx =>
    match glacLines target lc h.lines (idx + 1) with
    | Sum.inl r => Sum.inl r
    | Sum.inr idx₁ => glacHunks target lc rest idx₁

/-- The file loop of `get_line_at_cursor`: header, (reviewed files are
skipped entirely), file-comment blocks, placeholder or hunks, spacing. -/
def glacFiles (target : Nat) (s : ReviewSession) :
    List DiffFile → Nat → Option (Nat × LineSide) ⊕ Nat
  | [], idx => Sum.inr idx
  | f :: rest, idx =>
    let idx := idx + 1
    if s.is_file_reviewed f.path then glacFiles target s rest idx
    else
      let idx := idx + commentsHeight (fileCommentsOf s f.path)
      if f.is_binary || f.hunks.isEmpty then glacFiles target s rest (idx + 1 + 1)
      else
        match glacHunks target (lineCommentsOf s f.path) f.hunks idx with
        | Sum.inl r => Sum.inl r
        | Sum.inr idx₁ => glacFiles target s rest (idx₁ + 1)

/-- `get_line_at_cursor` (src/app.rs:496-578). -/
def App.get_line_at_cursor (a : App) : Option (Nat × LineSide) :=
  match glacFiles a.diff_state.cursor_line a.session a.diff_files 0 with
  | Sum.inl r => r
  | Sum.inr _ => none

/-! ## `find_comment_at_cursor` and `delete_comment_at_cursor`
(src/app.rs:581-726) -/

/-- `CommentLocation` (src/app.rs:80-92). -/
inductive CommentLocation where
  | fileComment (path : String) (index : Nat)
  | lineComment (path : String) (line : Nat) (side : LineSide) (index : Nat)
deriving DecidableEq, Repr

/-- The file-comment scan of `find_comment_at_cursor`: each block's span is
checked against the target; the reported index is the enumeration index in
the stored list. -/
def fcacFileComments (target : Nat) (path : String) :
    List Comment → Nat → Nat → CommentLocation ⊕ Nat
  | [], _, idx => Sum.inr idx
  | c :: rest, i, idx =>
    let dl := comment_display_lines c
    if idx ≤ target ∧ target < idx + dl then Sum.inl (CommentLocation.fileComment path i)
    else fcacFileComments target path rest (i + 1) (idx + dl)

/-- The side-filtered line-comment scan of `find_comment_at_cursor`: only
blocks of the requested side occupy space, but the reported index is the
enumeration index in the full mixed-side stored list. -/
def fcacSideComments (target : Nat) (path : String) (line : Nat) (side : LineSide)
    (keep : Comment → Bool) :
    List Comment → Nat → Nat → CommentLocation ⊕ Nat
  | [], _, idx => Sum.inr idx
  | c :: rest, i, idx =>
    if keep c then
      let dl := comment_display_lines c
      if idx ≤ target ∧ target < idx + dl then
        Sum.inl (CommentLocation.lineComment path line side i)
      else fcacSideComments target path line side keep rest (i + 1) (idx + dl)
    else fcacSideComments target path line side keep rest (i + 1) idx

/-- The comment scan after one diff line: old-side blocks, then new-side
blocks. -/
def fcacLineStep (target : Nat) (path : String) (lc : List (Nat × List Comment)) (d : DiffLine)
    (idx : Nat) : CommentLocation ⊕ Nat :=
  let afterOld :=
    match d.old_lineno with
    | some ln =>
      match alookup ln lc with
      | some cs =>
        fcacSideComments target path ln LineSide.Old
          (fun c => decide (c.side = some LineSide.Old)) cs 0 idx
      | none => Sum.inr idx
    | none => Sum.inr idx
  match afterOld with
  | Sum.inl r => Sum.inl r
  | Sum.inr idx₁ =>
    match d.new_lineno with
    | some ln =>
      match alookup ln lc with
      | some cs =>
        fcacSideComments target path ln LineSide.New
          (fun c => decide (¬ (c.side = some LineSide.Old))) cs 0 idx₁
      | none => Sum.inr idx₁
    | none => Sum.inr idx₁

/-- The diff-line loop of `find_comment_at_cursor`. -/
def fcacLines (target : Nat) (path : String) (lc : List (Nat × List Comment)) :
    List DiffLine → Nat → CommentLocation ⊕ Nat
  | [], idx => Sum.inr idx
  | d :: rest, idx =>
    match fcacLineStep target path lc d (idx + 1) with
    | Sum.inl r => Sum.inl r
    | Sum.inr idx₁ => fcacLines target path lc rest idx₁

/-- The hunk loop of `find_comment_at_cursor`. -/
def fcacHunks (target : Nat) (path : String) (lc : List (Nat × List Comment)) :
    List Hunk → Nat → CommentLocation ⊕ Nat
  | [], idx => Sum.inr idx
  | h :: rest, idx =>
    match fcacLines target path lc h.lines (idx + 1) with
    | Sum.inl r => Sum.inl r
    | Sum.inr idx₁ => fcacHunks target path lc rest idx₁

/-- The file loop of `find_comment_at_cursor`. -/
def fcacFiles (target : Nat) (s : ReviewSession) :
    List DiffFile → Nat → CommentLocation ⊕ Nat
  | [], idx => Sum.inr idx
  | f :: rest, idx =>
    let idx := idx + 1
    if s.is_file_reviewed f.path then fcacFiles target s rest idx
    else
      match fcacFileComments target f.path (fileCommentsOf s f.path) 0 idx with
      | Sum.inl r => Sum.inl r
      | Sum.inr idx₁ =>
        if f.is_binary || f.hunks.isEmpty then fcacFiles target s rest (idx₁ + 1 + 1)
        else
          match fcacHunks target f.path (lineCommentsOf s f.path) f.hunks idx₁ with
          | Sum.inl r => Sum.inl r
          | Sum.inr idx₂ => fcacFiles target s rest (idx₂ + 1)

/-- `find_comment_at_cursor` (src/app.rs:581-673). -/
def App.find_comment_at_cursor (a : App) : Option CommentLocation :=
  match fcacFiles a.diff_state.cursor_line a.session a.diff_files 0 with
  | Sum.inl r => some r
  | Sum.inr _ => none

/-- The storage-index re-derivation of `delete_comment_at_cursor`
(src/app.rs:700-712): find the position of the `index`-th same-side entry,
where a comment's side defaults to `New` when absent. -/
def findActualIdx (side : LineSide) : Nat → List Comment → Nat → Option Nat
  | _, [], _ => none
  | k, c :: rest, j =>
    if c.side.getD LineSide.New = side then
      if k = 0 then some j
      else findActualIdx side (k - 1) rest (j + 1)
    else findActualIdx side k rest (j + 1)

/-- `delete_comment_at_cursor` (src/app.rs:677-726).  Returns the new state
and whether a deletion occurred. -/
def App.delete_comment_at_cursor (a : App) : App × Bool :=
  match a.find_comment_at_cursor with
  | none => (a, false)
  | some (CommentLocation.fileComment path index) =>
    match alookup path a.session.files with
    | none => (a, false)
    | some _ =>
      let session : ReviewSession :=
        ⟨aupdate path (fun r => { r with file_comments := r.file_comments.eraseIdx index })
          a.session.files⟩
      ({ a with
          session := session
          dirty := true
          message := some "Comment deleted" }, true)
  | some (CommentLocation.lineComment path line side index) =>
    match alookup path a.session.files with
    | none => (a, false)
    | some r =>
      match alookup line r.line_comments with
      | none => (a, false)
      | some comments =>
        match findActualIdx side index comments 0 with
        | none => (a, false)
        | some j =>
          let comments₁ := comments.eraseIdx j
          let update : FileReview → FileReview := fun r₁ =>
            if comments₁.isEmpty then
              { r₁ with line_comments := aremove line r₁.line_comments }
            else
              { r₁ with line_comments := aupdate line (fun _ => comments₁) r₁.line_comments }
          let session : ReviewSession := ⟨aupdate path update a.session.files⟩
          ({ a with
              session := session
              dirty := true
              message := some "Comment on line deleted" }, true)

/-! ## `reload_diff_files` (src/app.rs:148-215)

The call to the external diff provider (`get_working_tree_diff`) is out of
scope per the spec (§1, §6); `reload` takes the provider's result — the new
snapshot — as an argument and performs the remapping of the source. -/

/-- Used where the source indexes `self.diff_files[target_idx]` with an
index known in range. -/
def dummyFile : DiffFile :=
  { path := "", status := FileStatus.Modified, is_binary := false, hunks := [] }

/-- Rust's `Iterator::position`, used as
`self.diff_files.iter().position(|file| file.display_path() == &path)`
(src/app.rs:179-181). -/
def positionAux {α : Type} (p : α → Bool) : List α → Nat → Option Nat
  | [], _ => none
  | x :: rest, i => if p x then some i else positionAux p rest (i + 1)

def position {α : Type} (p : α → Bool) (l : List α) : Option Nat :=
  positionAux p l 0

/-- The session after ingesting the new snapshot (src/app.rs:165-168). -/
def reloadSession (a : App) (new_files : List DiffFile) : ReviewSession :=
  new_files.foldl (fun s f => s.add_file f.path f.status) a.session

/-- The target file index of the reload remap (src/app.rs:178-185): the
position of the previously selected path in the new snapshot when it still
exists, otherwise the previous index clamped to the new file count. -/
def reloadTarget (a : App) (new_files : List DiffFile) : Nat :=
  match (a.diff_files.get? a.diff_state.current_file_idx).map (fun f => f.path) with
  | some p =>
    match position (fun f => decide (f.path = p)) new_files with
    | some i => i
    | none => min a.diff_state.current_file_idx (new_files.length - 1)
  | none => min a.diff_state.current_file_idx (new_files.length - 1)

/-- `reload_diff_files` (src/app.rs:148-215), with the new snapshot passed
in place of the `get_working_tree_diff` call. -/
def App.reload (a : App) (new_files : List DiffFile) : App :=
  let prev_cursor_line := a.diff_state.cursor_line
  let prev_viewport_offset := prev_cursor_line - a.diff_state.scroll_offset
  let prev_relative_line :=
    if a.diff_files.isEmpty then 0
    else prev_cursor_line -
      calculate_file_scroll_offset a.session a.diff_files a.diff_state.current_file_idx
  let a₁ := { a with session := reloadSession a new_files, diff_files := new_files }
  if a₁.diff_files.isEmpty then
    { a₁ with
      diff_state :=
        { a₁.diff_state with current_file_idx := 0, cursor_line := 0, scroll_offset := 0 },
      file_list_selected := 0 }
  else
    let target_idx := reloadTarget a new_files
    let a₂ := a₁.jump_to_file target_idx
    let file_start := calculate_file_scroll_offset a₂.session a₂.diff_files target_idx
    let file_height := file_render_height a₂.session ((a₂.diff_files.get? target_idx).getD
      dummyFile)
    let relative_line := min prev_relative_line (file_height - 1)
    let a₃ := { a₂ with diff_state :=
      { a₂.diff_state with cursor_line := file_start + relative_line } }
    let viewport := max a₃.diff_state.viewport_height 1
    let max_relative := viewport - 1
    let relative_offset := min prev_viewport_offset max_relative
    let total := total_lines a₃.session a₃.diff_files
    let a₄ :=
      if total = 0 then
        { a₃ with diff_state := { a₃.diff_state with scroll_offset := 0 } }
      else
        { a₃ with diff_state :=
          { a₃.diff_state with
            scroll_offset := min (a₃.diff_state.cursor_line - relative_offset) (total - 1) } }
    a₄.ensure_cursor_visible.update_current_file_from_cursor

/-! ## The flattened line space, modelled from the spec (§3)

The spec defines the flattened line space as the ordered concatenation,
across all files, of: one file-header line; (reviewed files contribute
nothing further); each file-level comment's rendered block; one placeholder
line for binary/hunk-less files, or per hunk one hunk-header line followed
by each diff line plus the blocks of the comments attached to its old-side
and new-side numbers; and one spacing line per file.  A comment block
occupies `comment_display_lines` lines (invariant I2). -/

/-- One row of the flattened line space, labelled with its semantic kind. -/
inductive Row where
  | fileHeader
  | commentLine
  | placeholder
  | hunkHeader
  | diffLine (d : DiffLine)
  | spacing
deriving DecidableEq, Repr

/-- Concatenation of the images of a list, written out to keep definitional
unfolding simple. -/
def concatMapL {α β : Type} (f : α → List β) : List α → List β
  | [] => []
  | x :: xs => f x ++ concatMapL f xs

/-- Modelled from the spec: the rows of one rendered comment block
(invariant I2: `comment_display_lines` rows). -/
def commentRows (c : Comment) : List Row :=
  List.replicate (comment_display_lines c) Row.commentLine

/-- Rows of a sequence of comment blocks. -/
def commentsRows (cs : List Comment) : List Row :=
  concatMapL commentRows cs

/-- Modelled from the spec: one diff line's row followed by the blocks of
its old-side then new-side comments (§3). -/
def lineRows (lc : List (Nat × List Comment)) (d : DiffLine) : List Row :=
  Row.diffLine d :: (commentsRows (oldSideComments lc d) ++ commentsRows (newSideComments lc d))

/-- Modelled from the spec: a hunk's header row followed by its lines' rows
(§3). -/
def hunkRows (lc : List (Nat × List Comment)) (h : Hunk) : List Row :=
  Row.hunkHeader :: concatMapL (lineRows lc) h.lines

/-- Modelled from the spec: one file's rows in the flattened line space
(§3, invariant I3 for reviewed files). -/
def fileRows (s : ReviewSession) (f : DiffFile) : List Row :=
  Row.fileHeader ::
    (if s.is_file_reviewed f.path then []
     else
       commentsRows (fileCommentsOf s f.path) ++
         (if f.is_binary || f.hunks.isEmpty then [Row.placeholder]
          else concatMapL (hunkRows (lineCommentsOf s f.path)) f.hunks) ++
         [Row.spacing])

/-- Modelled from the spec: the flattened line space of the current state
(§3). -/
def flattenRows (a : App) : List Row :=
  concatMapL (fileRows a.session) a.diff_files

/-! ## Characterizing the `get_line_at_cursor` walk against the rows -/

/-- The value an early-return walk over `rows` started at running index
`idx` produces for a target cursor: the resolution of the diff line under
the target when the target falls on a diff-line row, and otherwise the
index accumulated across all of `rows`. -/
def rowsResult (target idx : Nat) (rows : List Row) : Option (Nat × LineSide) ⊕ Nat :=
  match (if idx ≤ target then rows.get? (target - idx) else none) with
  | some (Row.diffLine d) => Sum.inl (resolveLine d)
  | _ => Sum.inr (idx + rows.length)

theorem rowsResult_nil (target idx : Nat) : rowsResult target idx [] = Sum.inr idx := by
  simp [rowsResult]

theorem rowsResult_past (target idx : Nat) (rows : List Row) (h : target < idx) :
    rowsResult target idx rows = Sum.inr (idx + rows.length) := by
  unfold rowsResult
  rw [if_neg (by omega)]

theorem rowsResult_cons (target idx : Nat) (r : Row) (rows : List Row) :
    rowsResult target idx (r :: rows) =
      if idx = target then
        (match r with
         | Row.diffLine d => Sum.inl (resolveLine d)
         | _ => Sum.inr (idx + 1 + rows.length))
      else rowsResult target (idx + 1) rows := by
  unfold rowsResult
  rcases eq_or_ne idx target with heq | hne
  · subst heq
    rw [if_pos (le_refl idx), if_pos rfl, Nat.sub_self]
    cases r <;> simp [List.length_cons] <;> omega
  · rw [if_neg hne]
    rcases le_or_lt idx target with hle | hlt
    · have h1 : idx + 1 ≤ target := by omega
      have h2 : (r :: rows).get? (target - idx) = rows.get? (target - (idx + 1)) := by
        have hstep : target - idx = (target - (idx + 1)) + 1 := by omega
        rw [hstep]
        rfl
      rw [if_pos hle, if_pos h1, h2]
      cases hr : rows.get? (target - (idx + 1)) with
      | none => simp [List.length_cons]; omega
      | some r₂ => cases r₂ <;> simp [List.length_cons] <;> omega
    · rw [if_neg (by omega), if_neg (by omega)]
      simp [List.length_cons]
      omega

theorem rowsResult_append (target idx : Nat) (r₁ r₂ : List Row) :
    rowsResult target idx (r₁ ++ r₂) =
      match rowsResult target idx r₁ with
      | Sum.inl x => Sum.inl x
      | Sum.inr idx₁ => rowsResult target idx₁ r₂ := by
  induction r₁ generalizing idx with
  | nil =>
    rw [List.nil_append, rowsResult_nil]
  | cons r rs ih =>
    rw [List.cons_append, rowsResult_cons, rowsResult_cons]
    rcases eq_or_ne idx target with heq | hne
    · rw [if_pos heq, if_pos heq]
      cases r with
      | diffLine d => rfl
      | fileHeader =>
        show Sum.inr (idx + 1 + (rs ++ r₂).length) = rowsResult target (idx + 1 + rs.length) r₂
        rw [rowsResult_past target _ _ (by omega), List.length_append]
        congr 1
        omega
      | commentLine =>
        show Sum.inr (idx + 1 + (rs ++ r₂).length) = rowsResult target (idx + 1 + rs.length) r₂
        rw [rowsResult_past target _ _ (by omega), List.length_append]
        congr 1
        omega
      | placeholder =>
        show Sum.inr (idx + 1 + (rs ++ r₂).length) = rowsResult target (idx + 1 + rs.length) r₂
        rw [rowsResult_past target _ _ (by omega), List.length_append]
        congr 1
        omega
      | hunkHeader =>
        show Sum.inr (idx + 1 + (rs ++ r₂).length) = rowsResult target (idx + 1 + rs.length) r₂
        rw [rowsResult_past target _ _ (by omega), List.length_append]
        congr 1
        omega
      | spacing =>
        show Sum.inr (idx + 1 + (rs ++ r₂).length) = rowsResult target (idx + 1 + rs.length) r₂
        rw [rowsResult_past target _ _ (by omega), List.length_append]
        congr 1
        omega
    · rw [if_neg hne, if_neg hne, ih]

theorem rowsResult_skip_single (target idx : Nat) (r : Row)
    (h : ∀ d, r ≠ Row.diffLine d) :
    rowsResult target idx [r] = Sum.inr (idx + 1) := by
  rw [rowsResult_cons]
  rcases eq_or_ne idx target with heq | hne
  · rw [if_pos heq]
    cases r with
    | diffLine d => exact absurd rfl (h d)
    | fileHeader => rfl
    | commentLine => rfl
    | placeholder => rfl
    | hunkHeader => rfl
    | spacing => rfl
  · rw [if_neg hne, rowsResult_nil]

theorem commentsRows_length (cs : List Comment) :
    (commentsRows cs).length = commentsHeight cs := by
  induction cs with
  | nil => rfl
  | cons c rest ih =>
    show (commentRows c ++ commentsRows rest).length = _
    rw [List.length_append, ih]
    simp [commentRows, commentsHeight]

theorem rowsResult_commentsRows (target idx : Nat) (cs : List Comment) :
    rowsResult target idx (commentsRows cs) = Sum.inr (idx + commentsHeight cs) := by
  induction cs generalizing idx with
  | nil =>
    show rowsResult target idx [] = _
    rw [rowsResult_nil]
    simp [commentsHeight]
  | cons c rest ih =>
    have hrep : ∀ j, rowsResult target j (commentRows c) =
        Sum.inr (j + comment_display_lines c) := by
      intro j
      unfold commentRows
      generalize comment_display_lines c = n
      induction n generalizing j with
      | zero =>
        show rowsResult target j [] = _
        rw [rowsResult_nil]
        rfl
      | succ m ihm =>
        show rowsResult target j (Row.commentLine :: List.replicate m Row.commentLine) = _
        rw [rowsResult_cons]
        rcases eq_or_ne j target with heq | hne
        · rw [if_pos heq]
          show Sum.inr (j + 1 + (List.replicate m Row.commentLine).length) = _
          rw [List.length_replicate]
          congr 1
          omega
        · rw [if_neg hne, ihm]
          congr 1
          omega
    show rowsResult target idx (commentRows c ++ commentsRows rest) = _
    rw [rowsResult_append, hrep idx]
    show rowsResult target (idx + comment_display_lines c) (commentsRows rest) = _
    rw [ih]
    congr 1
    simp [commentsHeight]
    omega

/-- The diff-line loop of `get_line_at_cursor` is the early-return walk over
the corresponding rows. -/
theorem glacLines_eq_rowsResult (target : Nat) (lc : List (Nat × List Comment))
    (ds : List DiffLine) :
    ∀ idx, glacLines target lc ds idx = rowsResult target idx (concatMapL (lineRows lc) ds) := by
  induction ds with
  | nil =>
    intro idx
    show glacLines target lc [] idx = rowsResult target idx []
    rw [rowsResult_nil]
    rfl
  | cons d rest ih =>
    intro idx
    show glacLines target lc (d :: rest) idx =
      rowsResult target idx (lineRows lc d ++ concatMapL (lineRows lc) rest)
    rw [rowsResult_append]
    have hline : rowsResult target idx (lineRows lc d) =
        if idx = target then Sum.inl (resolveLine d)
        else Sum.inr (idx + 1 + commentsHeight (oldSideComments lc d) +
          commentsHeight (newSideComments lc d)) := by
      show rowsResult target idx (Row.diffLine d ::
        (commentsRows (oldSideComments lc d) ++ commentsRows (newSideComments lc d))) = _
      rw [rowsResult_cons]
      rcases eq_or_ne idx target with heq | hne
      · rw [if_pos heq, if_pos heq]
      · rw [if_neg hne, if_neg hne, rowsResult_append, rowsResult_commentsRows]
        show rowsResult target (idx + 1 + commentsHeight (oldSideComments lc d))
          (commentsRows (newSideComments lc d)) = _
        rw [rowsResult_commentsRows]
    rw [hline]
    rcases eq_or_ne idx target with heq | hne
    · rw [if_pos heq]
      show glacLines target lc (d :: rest) idx = Sum.inl (resolveLine d)
      simp only [glacLines, heq, if_pos]
    · rw [if_neg hne]
      show glacLines target lc (d :: rest) idx = _
      simp only [glacLines, hne, if_neg, ne_eq, not_false_iff]
      exact ih _

/-- The hunk loop of `get_line_at_cursor` is the early-return walk over the
corresponding rows. -/
theorem glacHunks_eq_rowsResult (target : Nat) (lc : List (Nat × List Comment))
    (hs : List Hunk) :
    ∀ idx, glacHunks target lc hs idx = rowsResult target idx (concatMapL (hunkRows lc) hs) := by
  induction hs with
  | nil =>
    intro idx
    show glacHunks target lc [] idx = rowsResult target idx []
    rw [rowsResult_nil]
    rfl
  | cons h rest ih =>
    intro idx
    show glacHunks target lc (h :: rest) idx =
      rowsResult target idx (hunkRows lc h ++ concatMapL (hunkRows lc) rest)
    rw [rowsResult_append]
    have hhunk : rowsResult target idx (hunkRows lc h) =
        glacLines target lc h.lines (idx + 1) := by
      show rowsResult target idx (Row.hunkHeader :: concatMapL (lineRows lc) h.lines) = _
      rw [rowsResult_cons]
      rcases eq_or_ne idx target with heq | hne
      · rw [if_pos heq, glacLines_eq_rowsResult, rowsResult_past target _ _ (by omega)]
      · rw [if_neg hne, glacLines_eq_rowsResult]
    rw [hhunk]
    show glacHunks target lc (h :: rest) idx = _
    simp only [glacHunks]
    cases hg : glacLines target lc h.lines (idx + 1) with
    | inl r => rfl
    | inr idx₁ => exact ih idx₁

/-- The walk result over a single file's rows, phrased through the hunk
walk. -/
theorem rowsResult_fileRows (target idx : Nat) (s : ReviewSession) (f : DiffFile) :
    rowsResult target idx (fileRows s f) =
      if s.is_file_reviewed f.path then Sum.inr (idx + 1)
      else if f.is_binary || f.hunks.isEmpty then
        Sum.inr (idx + 1 + commentsHeight (fileCommentsOf s f.path) + 1 + 1)
      else
        match glacHunks target (lineCommentsOf s f.path) f.hunks
            (idx + 1 + commentsHeight (fileCommentsOf s f.path)) with
        | Sum.inl r => Sum.inl r
        | Sum.inr i => Sum.inr (i + 1) := by
  unfold fileRows
  cases hrev : s.is_file_reviewed f.path with
  | true =>
    simp only [if_true]
    exact rowsResult_skip_single target idx Row.fileHeader (by intro d hd; cases hd)
  | false =>
    simp only [Bool.false_eq_true, if_false]
    rw [rowsResult_cons]
    rcases eq_or_ne idx target with heq | hne
    · rw [if_pos heq]
      cases hbin : f.is_binary || f.hunks.isEmpty with
      | true =>
        simp only [if_true]
        show Sum.inr (idx + 1 + (commentsRows (fileCommentsOf s f.path) ++ [Row.placeholder] ++
          [Row.spacing]).length) = _
        simp only [List.length_append, commentsRows_length, List.length_singleton]
        congr 1
      | false =>
        simp only [Bool.false_eq_true, if_false]
        rw [glacHunks_eq_rowsResult, rowsResult_past target _ _ (by omega)]
        show Sum.inr (idx + 1 + (commentsRows (fileCommentsOf s f.path) ++
          concatMapL (hunkRows (lineCommentsOf s f.path)) f.hunks ++ [Row.spacing]).length) =
          Sum.inr (idx + 1 + commentsHeight (fileCommentsOf s f.path) +
            (concatMapL (hunkRows (lineCommentsOf s f.path)) f.hunks).length + 1)
        simp only [List.length_append, commentsRows_length, List.length_singleton]
        congr 1
        omega
    · rw [if_neg hne]
      cases hbin : f.is_binary || f.hunks.isEmpty with
      | true =>
        simp only [if_true]
        rw [List.append_assoc, rowsResult_append, rowsResult_commentsRows]
        show rowsResult target (idx + 1 + commentsHeight (fileCommentsOf s f.path))
          ([Row.placeholder] ++ [Row.spacing]) = _
        rw [rowsResult_append,
          rowsResult_skip_single target _ _ (by intro d hd; cases hd)]
        show rowsResult target (idx + 1 + commentsHeight (fileCommentsOf s f.path) + 1)
          [Row.spacing] = _
        rw [rowsResult_skip_single target _ _ (by intro d hd; cases hd)]
      | false =>
        simp only [Bool.false_eq_true, if_false]
        rw [List.append_assoc, rowsResult_append, rowsResult_commentsRows]
        show rowsResult target (idx + 1 + commentsHeight (fileCommentsOf s f.path))
          (concatMapL (hunkRows (lineCommentsOf s f.path)) f.hunks ++ [Row.spacing]) = _
        rw [rowsResult_append, ← glacHunks_eq_rowsResult]
        cases hg : glacHunks target (lineCommentsOf s f.path) f.hunks
            (idx + 1 + commentsHeight (fileCommentsOf s f.path)) with
        | inl r => rfl
        | inr i =>
          show rowsResult target i [Row.spacing] = _
          rw [rowsResult_skip_single target _ _ (by intro d hd; cases hd)]

/-- The file loop of `get_line_at_cursor` is the early-return walk over the
flattened line space. -/
theorem glacFiles_eq_rowsResult (target : Nat) (s : ReviewSession) (fs : List DiffFile) :
    ∀ idx, glacFiles target s fs idx = rowsResult target idx (concatMapL (fileRows s) fs) := by
  induction fs with
  | nil =>
    intro idx
    show glacFiles target s [] idx = rowsResult target idx []
    rw [rowsResult_nil]
    rfl
  | cons f rest ih =>
    intro idx
    show glacFiles target s (f :: rest) idx =
      rowsResult target idx (fileRows s f ++ concatMapL (fileRows s) rest)
    rw [rowsResult_append, rowsResult_fileRows]
    simp only [glacFiles]
    cases hrev : s.is_file_reviewed f.path with
    | true =>
      simp only [if_true]
      exact ih _
    | false =>
      simp only [Bool.false_eq_true, if_false]
      cases hbin : f.is_binary || f.hunks.isEmpty with
      | true =>
        simp only [if_true]
        exact ih _
      | false =>
        simp only [Bool.false_eq_true, if_false]
        cases hg : glacHunks target (lineCommentsOf s f.path) f.hunks
            (idx + 1 + commentsHeight (fileCommentsOf s f.path)) with
        | inl r => rfl
        | inr i => exact ih _

/-- Master correspondence: `get_line_at_cursor` inspects exactly the row of
the flattened line space under the cursor. -/
theorem get_line_at_cursor_eq_row (a : App) :
    a.get_line_at_cursor =
      match (flattenRows a).get? a.diff_state.cursor_line with
      | some (Row.diffLine d) => resolveLine d
      | _ => none := by
  unfold App.get_line_at_cursor flattenRows
  rw [glacFiles_eq_rowsResult]
  unfold rowsResult
  simp only [Nat.zero_le, if_pos, Nat.sub_zero]
  cases hr : (concatMapL (fileRows a.session) a.diff_files).get? a.diff_state.cursor_line with
  | none => simp
  | some r => cases r <;> simp

/-! ## The approximate layout scanned by `next_hunk`/`prev_hunk`

The hunk-navigation walk of src/app.rs:356-439 accounts one line per
file-level comment (`review.file_comments.len()`) and no lines at all for
line-comment blocks, so the positions it scans live in an approximate
layout, not in the flattened line space of the spec.  The approximate
layout is written out as a row list so the walk's positions can be
characterized as exactly its hunk-header indices. -/

/-- One file's rows in the approximate layout of the hunk-navigation walk:
each file comment is a single row and line comments contribute nothing. -/
def approxFileRows (s : ReviewSession) (f : DiffFile) : List Row :=
  Row.fileHeader ::
    (if s.is_file_reviewed f.path then []
     else
       List.replicate (fileCommentsOf s f.path).length Row.commentLine ++
         (if f.is_binary || f.hunks.isEmpty then [Row.placeholder]
          else concatMapL (fun h => Row.hunkHeader :: h.lines.map Row.diffLine) f.hunks) ++
         [Row.spacing])

/-- The approximate layout of the current state. -/
def approxRows (a : App) : List Row :=
  concatMapL (approxFileRows a.session) a.diff_files

/-- The indices of the hunk-header rows of a row list, offset by `i`. -/
def headerIdxs : List Row → Nat → List Nat
  | [], _ => []
  | r :: rest, i =>
    if r = Row.hunkHeader then i :: headerIdxs rest (i + 1) else headerIdxs rest (i + 1)

theorem headerIdxs_cons_header (rest : List Row) (i : Nat) :
    headerIdxs (Row.hunkHeader :: rest) i = i :: headerIdxs rest (i + 1) := rfl

theorem headerIdxs_cons_of_ne (r : Row) (rest : List Row) (i : Nat) (h : r ≠ Row.hunkHeader) :
    headerIdxs (r :: rest) i = headerIdxs rest (i + 1) := by
  simp [headerIdxs, h]

theorem headerIdxs_append (r₁ r₂ : List Row) :
    ∀ i, headerIdxs (r₁ ++ r₂) i = headerIdxs r₁ i ++ headerIdxs r₂ (i + r₁.length) := by
  induction r₁ with
  | nil => intro i; simp [headerIdxs]
  | cons r rs ih =>
    intro i
    show headerIdxs (r :: (rs ++ r₂)) i = headerIdxs (r :: rs) i ++ _
    simp only [headerIdxs]
    have harith : i + 1 + rs.length = i + (r :: rs).length := by
      simp [List.length_cons]
      omega
    rcases eq_or_ne r Row.hunkHeader with heq | hne
    · rw [if_pos heq, if_pos heq, ih, harith]
      rfl
    · rw [if_neg hne, if_neg hne, ih, harith]

theorem headerIdxs_no_header (rows : List Row) (h : ∀ r ∈ rows, r ≠ Row.hunkHeader) :
    ∀ i, headerIdxs rows i = [] := by
  induction rows with
  | nil => intro i; rfl
  | cons r rest ih =>
    intro i
    simp only [headerIdxs]
    rw [if_neg (h r (by simp))]
    exact ih (fun x hx => h x (by simp [hx])) (i + 1)

theorem headerIdxs_ge (rows : List Row) :
    ∀ i p, p ∈ headerIdxs rows i → i ≤ p := by
  induction rows with
  | nil => intro i p hp; simp [headerIdxs] at hp
  | cons r rest ih =>
    intro i p hp
    simp only [headerIdxs] at hp
    rcases eq_or_ne r Row.hunkHeader with heq | hne
    · rw [if_pos heq] at hp
      rcases List.mem_cons.mp hp with h1 | h2
      · omega
      · have := ih (i + 1) p h2
        omega
    · rw [if_neg hne] at hp
      have := ih (i + 1) p hp
      omega

theorem headerIdxs_sorted (rows : List Row) :
    ∀ i, (headerIdxs rows i).Pairwise (· < ·) := by
  induction rows with
  | nil => intro i; simp [headerIdxs]
  | cons r rest ih =>
    intro i
    simp only [headerIdxs]
    rcases eq_or_ne r Row.hunkHeader with heq | hne
    · rw [if_pos heq]
      refine List.Pairwise.cons ?_ (ih (i + 1))
      intro p hp
      have := headerIdxs_ge rest (i + 1) p hp
      omega
    · rw [if_neg hne]
      exact ih (i + 1)

/-- The hunk fold of `filePositions` produces exactly the hunk-header
indices of the approximate hunk rows. -/
theorem hunksFold_eq (hs : List Hunk) :
    ∀ ps cum,
      hs.foldl (fun (acc : List Nat × Nat) h => (acc.1 ++ [acc.2], acc.2 + 1 + h.lines.length))
        (ps, cum) =
      (ps ++ headerIdxs (concatMapL (fun h => Row.hunkHeader :: h.lines.map Row.diffLine) hs) cum,
       cum + (concatMapL (fun h => Row.hunkHeader :: h.lines.map Row.diffLine) hs).length) := by
  induction hs with
  | nil => intro ps cum; simp [concatMapL, headerIdxs]
  | cons h rest ih =>
    intro ps cum
    show List.foldl (fun (acc : List Nat × Nat) h => (acc.1 ++ [acc.2], acc.2 + 1 + h.lines.length))
      (ps ++ [cum], cum + 1 + h.lines.length) rest = _
    rw [ih]
    have hrows : concatMapL (fun h => Row.hunkHeader :: h.lines.map Row.diffLine) (h :: rest) =
        (Row.hunkHeader :: h.lines.map Row.diffLine) ++
          concatMapL (fun h => Row.hunkHeader :: h.lines.map Row.diffLine) rest := rfl
    rw [hrows, headerIdxs_append]
    have hone : ∀ i, headerIdxs (Row.hunkHeader :: h.lines.map Row.diffLine) i = [i] := by
      intro i
      rw [headerIdxs_cons_header, headerIdxs_no_header]
      intro r hr
      rcases List.mem_map.mp hr with ⟨d, _, hd⟩
      rw [← hd]
      intro hcon
      cases hcon
    rw [hone]
    have harith : cum + (Row.hunkHeader :: h.lines.map Row.diffLine).length =
        cum + 1 + h.lines.length := by
      simp [List.length_cons, List.length_map]
      omega
    rw [harith]
    simp only [Prod.mk.injEq]
    refine ⟨?_, ?_⟩
    · rw [List.append_assoc]
    · rw [List.length_append]
      simp [List.length_cons, List.length_map]
      omega

/-- `filePositions` produces the hunk-header indices of the file's
approximate rows, and advances the running height by their length. -/
theorem filePositions_eq (s : ReviewSession) (f : DiffFile) (cum : Nat) :
    filePositions s f cum =
      (headerIdxs (approxFileRows s f) cum, cum + (approxFileRows s f).length) := by
  unfold filePositions approxFileRows
  cases hrev : s.is_file_reviewed f.path with
  | true =>
    simp only [if_true]
    rfl
  | false =>
    simp only [Bool.false_eq_true, if_false]
    have hcomments : (match alookup f.path s.files with
        | some r => r.file_comments.length
        | none => 0) = (fileCommentsOf s f.path).length := by
      unfold fileCommentsOf
      cases alookup f.path s.files <;> rfl
    cases hbin : f.is_binary || f.hunks.isEmpty with
    | true =>
      simp only [if_true]
      have hrows : headerIdxs (Row.fileHeader ::
          (List.replicate (fileCommentsOf s f.path).length Row.commentLine ++
            [Row.placeholder] ++ [Row.spacing])) cum = [] := by
        apply headerIdxs_no_header
        intro r hr
        rcases List.mem_cons.mp hr with h1 | h2
        · rw [h1]; intro hcon; cases hcon
        · rcases List.mem_append.mp h2 with h3 | h4
          · rcases List.mem_append.mp h3 with h5 | h6
            · rw [List.eq_of_mem_replicate h5]; intro hcon; cases hcon
            · rcases List.mem_singleton.mp h6 with h7
              rw [h7]; intro hcon; cases hcon
          · rcases List.mem_singleton.mp h4 with h7
            rw [h7]; intro hcon; cases hcon
      rw [hrows, hcomments]
      simp only [Prod.mk.injEq]
      refine ⟨by trivial, ?_⟩
      simp [List.length_cons, List.length_append, List.length_replicate]
      omega
    | false =>
      simp only [Bool.false_eq_true, if_false]
      rw [hcomments, hunksFold_eq]
      have hsplit : headerIdxs (Row.fileHeader ::
          (List.replicate (fileCommentsOf s f.path).length Row.commentLine ++
            concatMapL (fun h => Row.hunkHeader :: h.lines.map Row.diffLine) f.hunks ++
            [Row.spacing])) cum =
          headerIdxs (concatMapL (fun h => Row.hunkHeader :: h.lines.map Row.diffLine) f.hunks)
            (cum + 1 + (fileCommentsOf s f.path).length) := by
        rw [headerIdxs_cons_of_ne _ _ _ (by intro hcon; cases hcon)]
        rw [headerIdxs_append, headerIdxs_append,
          headerIdxs_no_header (List.replicate (fileCommentsOf s f.path).length Row.commentLine)
            (fun r hr => by rw [List.eq_of_mem_replicate hr]; intro hcon; cases hcon),
          headerIdxs_no_header [Row.spacing]
            (fun r hr => by rw [List.mem_singleton.mp hr]; intro hcon; cases hcon)]
        simp only [List.nil_append, List.append_nil, List.length_replicate]
      rw [hsplit]
      simp only [Prod.mk.injEq]
      refine ⟨?_, ?_⟩
      · congr 1
      · simp [List.length_cons, List.length_append, List.length_replicate]
        omega

/-- The positions scanned by `next_hunk`/`prev_hunk` are exactly the
hunk-header row indices of the approximate layout. -/
theorem hunkPositionsAux_eq (s : ReviewSession) (fs : List DiffFile) :
    ∀ cum, hunkPositionsAux s fs cum = headerIdxs (concatMapL (approxFileRows s) fs) cum := by
  induction fs with
  | nil => intro cum; rfl
  | cons f rest ih =>
    intro cum
    show (filePositions s f cum).1 ++ hunkPositionsAux s rest (filePositions s f cum).2 = _
    rw [filePositions_eq]
    show headerIdxs (approxFileRows s f) cum ++
      hunkPositionsAux s rest (cum + (approxFileRows s f).length) = _
    rw [ih]
    have : concatMapL (approxFileRows s) (f :: rest) =
        approxFileRows s f ++ concatMapL (approxFileRows s) rest := rfl
    rw [this, headerIdxs_append]

theorem hunkPositions_eq_headerIdxs (a : App) :
    hunkPositions a = headerIdxs (approxRows a) 0 :=
  hunkPositionsAux_eq a.session a.diff_files 0

/-! ## `find?` on sorted position lists -/

theorem find_gt_min (c : Nat) :
    ∀ (l : List Nat), l.Pairwise (· < ·) →
      ∀ x, l.find? (fun p => decide (c < p)) = some x →
        x ∈ l ∧ c < x ∧ ∀ q ∈ l, c < q → x ≤ q := by
  intro l
  induction l with
  | nil =>
    intro _ x hx
    simp [List.find?] at hx
  | cons y ys ih =>
    intro hp x hx
    rcases List.pairwise_cons.mp hp with ⟨hy, hys⟩
    by_cases hcy : c < y
    · have hfind : (y :: ys).find? (fun p => decide (c < p)) = some y := by
        simp [List.find?, hcy]
      rw [hfind] at hx
      have hxy : x = y := by
        injection hx with h
        exact h.symm
      subst hxy
      refine ⟨List.mem_cons_self _ _, hcy, ?_⟩
      intro q hq hcq
      rcases List.mem_cons.mp hq with h1 | h2
      · omega
      · exact Nat.le_of_lt (hy q h2)
    · have hfind : (y :: ys).find? (fun p => decide (c < p)) =
          ys.find? (fun p => decide (c < p)) := by
        simp [List.find?, hcy]
      rw [hfind] at hx
      rcases ih hys x hx with ⟨hmem, hcx, hmin⟩
      refine ⟨List.mem_cons_of_mem _ hmem, hcx, ?_⟩
      intro q hq hcq
      rcases List.mem_cons.mp hq with h1 | h2
      · subst h1
        exact absurd hcq hcy
      · exact hmin q h2 hcq

theorem find_lt_max_desc (c : Nat) :
    ∀ (l : List Nat), l.Pairwise (· > ·) →
      ∀ x, l.find? (fun p => decide (p < c)) = some x →
        x ∈ l ∧ x < c ∧ ∀ q ∈ l, q < c → q ≤ x := by
  intro l
  induction l with
  | nil =>
    intro _ x hx
    simp [List.find?] at hx
  | cons y ys ih =>
    intro hp x hx
    rcases List.pairwise_cons.mp hp with ⟨hy, hys⟩
    by_cases hyc : y < c
    · have hfind : (y :: ys).find? (fun p => decide (p < c)) = some y := by
        simp [List.find?, hyc]
      rw [hfind] at hx
      have hxy : x = y := by
        injection hx with h
        exact h.symm
      subst hxy
      refine ⟨List.mem_cons_self _ _, hyc, ?_⟩
      intro q hq hcq
      rcases List.mem_cons.mp hq with h1 | h2
      · omega
      · exact Nat.le_of_lt (hy q h2)
    · have hfind : (y :: ys).find? (fun p => decide (p < c)) =
          ys.find? (fun p => decide (p < c)) := by
        simp [List.find?, hyc]
      rw [hfind] at hx
      rcases ih hys x hx with ⟨hmem, hcx, hmax⟩
      refine ⟨List.mem_cons_of_mem _ hmem, hcx, ?_⟩
      intro q hq hcq
      rcases List.mem_cons.mp hq with h1 | h2
      · subst h1
        exact absurd hcq hyc
      · exact hmax q h2 hcq

/-! ## Viewport containment and frame infrastructure -/

/-- The viewport containment invariant of the spec:
`scroll_offset ≤ cursor_line < scroll_offset + viewport_height`. -/
def viewportContainment (a : App) : Prop :=
  a.diff_state.scroll_offset ≤ a.diff_state.cursor_line ∧
    a.diff_state.cursor_line < a.diff_state.scroll_offset + a.diff_state.viewport_height

/-- `update_current_file_from_cursor` only rewrites the current-file index
and the file-list selection. -/
theorem update_shape (a : App) :
    ∃ i j, a.update_current_file_from_cursor =
      { a with diff_state := { a.diff_state with current_file_idx := i },
               file_list_selected := j } := by
  unfold App.update_current_file_from_cursor
  cases hf : findFileIdx a.session a.diff_state.cursor_line a.diff_files 0 0 with
  | some i => exact ⟨i, i, rfl⟩
  | none =>
    cases he : a.diff_files.isEmpty with
    | true =>
      refine ⟨a.diff_state.current_file_idx, a.file_list_selected, ?_⟩
      simp [he]
    | false =>
      refine ⟨a.diff_files.length - 1, a.diff_files.length - 1, ?_⟩
      simp [he]

theorem update_scroll_eq (a : App) :
    (a.update_current_file_from_cursor).diff_state.scroll_offset =
      a.diff_state.scroll_offset := by
  obtain ⟨i, j, h⟩ := update_shape a
  rw [h]

theorem update_cursor_eq (a : App) :
    (a.update_current_file_from_cursor).diff_state.cursor_line = a.diff_state.cursor_line := by
  obtain ⟨i, j, h⟩ := update_shape a
  rw [h]

theorem update_vh_eq (a : App) :
    (a.update_current_file_from_cursor).diff_state.viewport_height =
      a.diff_state.viewport_height := by
  obtain ⟨i, j, h⟩ := update_shape a
  rw [h]

theorem update_session_eq (a : App) :
    (a.update_current_file_from_cursor).session = a.session := by
  obtain ⟨i, j, h⟩ := update_shape a
  rw [h]

theorem update_files_eq (a : App) :
    (a.update_current_file_from_cursor).diff_files = a.diff_files := by
  obtain ⟨i, j, h⟩ := update_shape a
  rw [h]

theorem update_dirty_eq (a : App) :
    (a.update_current_file_from_cursor).dirty = a.dirty := by
  obtain ⟨i, j, h⟩ := update_shape a
  rw [h]

theorem update_message_eq (a : App) :
    (a.update_current_file_from_cursor).message = a.message := by
  obtain ⟨i, j, h⟩ := update_shape a
  rw [h]

theorem jump_vh_eq (a : App) (idx : Nat) :
    (a.jump_to_file idx).diff_state.viewport_height = a.diff_state.viewport_height := by
  unfold App.jump_to_file
  split <;> rfl

/-- `ensure_cursor_visible` re-establishes the containment invariant
whenever the viewport is positive. -/
theorem ensure_containment (a : App) (h : 0 < a.diff_state.viewport_height) :
    viewportContainment a.ensure_cursor_visible := by
  obtain ⟨s, fs, ⟨so, sx, c, ci, vh⟩, sel, d, m⟩ := a
  simp only [viewportContainment, App.ensure_cursor_visible] at *
  have hmax : max vh 1 = vh := Nat.max_eq_left h
  rw [hmax]
  split_ifs <;> constructor <;> omega

theorem containment_update_iff (a : App) :
    viewportContainment a.update_current_file_from_cursor ↔ viewportContainment a := by
  unfold viewportContainment
  rw [update_scroll_eq, update_cursor_eq, update_vh_eq]

theorem containment_ensure_update (a : App) (h : 0 < a.diff_state.viewport_height) :
    viewportContainment a.ensure_cursor_visible.update_current_file_from_cursor :=
  (containment_update_iff _).mpr (ensure_containment a h)

/-- `delete_comment_at_cursor` leaves the whole diff state (cursor, scroll,
viewport) untouched in every branch. -/
theorem delete_fst_diff_state (a : App) :
    (a.delete_comment_at_cursor).1.diff_state = a.diff_state := by
  unfold App.delete_comment_at_cursor
  repeat' split
  all_goals rfl

theorem ensure_vh_eq (x : App) :
    x.ensure_cursor_visible.diff_state.viewport_height = x.diff_state.viewport_height := rfl

/-- The navigation frame: the review session, the diff file list, the dirty
flag, the message, and the viewport height of `b` agree with those of `a`. -/
def navFrame (a b : App) : Prop :=
  b.session = a.session ∧ b.diff_files = a.diff_files ∧ b.dirty = a.dirty ∧
    b.message = a.message ∧ b.diff_state.viewport_height = a.diff_state.viewport_height

theorem navFrame_rfl (a : App) : navFrame a a := ⟨rfl, rfl, rfl, rfl, rfl⟩

theorem navFrame_ensure {a b : App} (h : navFrame a b) : navFrame a b.ensure_cursor_visible := h

theorem navFrame_update {a b : App} (h : navFrame a b) :
    navFrame a b.update_current_file_from_cursor := by
  obtain ⟨i, j, hs⟩ := update_shape b
  rw [hs]
  exact h

/-- C10: every pure navigation operation (`cursor_down`, `cursor_up`,
`scroll_down`, `scroll_up`, `scroll_left`, `scroll_right`, `center_cursor`,
`jump_to_file`, `next_file`, `prev_file`, `next_hunk`, `prev_hunk`) leaves
the review session (reviewed flags and all comments), the diff file list,
the dirty flag (and the message and viewport height) unchanged; only the
cursor, the scroll offsets, and the current-file selection fields may
change. -/
theorem nav_ops_frame (a : App) (n idx : Nat) :
    navFrame a (a.cursor_down n) ∧ navFrame a (a.cursor_up n) ∧
    navFrame a (a.scroll_down n) ∧ navFrame a (a.scroll_up n) ∧
    navFrame a (a.scroll_left n) ∧ navFrame a (a.scroll_right n) ∧
    navFrame a a.center_cursor ∧ navFrame a (a.jump_to_file idx) ∧
    navFrame a a.next_file ∧ navFrame a a.prev_file ∧
    navFrame a a.next_hunk ∧ navFrame a a.prev_hunk := by
  have hjump : ∀ k, navFrame a (a.jump_to_file k) := by
    intro k
    unfold App.jump_to_file
    split
    · exact ⟨rfl, rfl, rfl, rfl, rfl⟩
    · exact navFrame_rfl a
  have hnext : navFrame a a.next_hunk := by
    unfold App.next_hunk
    cases hf : (hunkPositions a).find? (fun p => decide (a.diff_state.cursor_line < p)) with
    | some p => exact navFrame_update (navFrame_ensure ⟨rfl, rfl, rfl, rfl, rfl⟩)
    | none => exact navFrame_rfl a
  have hprev : navFrame a a.prev_hunk := by
    unfold App.prev_hunk
    cases hf : (hunkPositions a).reverse.find?
        (fun p => decide (p < a.diff_state.cursor_line)) with
    | some p => exact navFrame_update (navFrame_ensure ⟨rfl, rfl, rfl, rfl, rfl⟩)
    | none => exact navFrame_update (navFrame_ensure ⟨rfl, rfl, rfl, rfl, rfl⟩)
  exact ⟨navFrame_update (navFrame_ensure ⟨rfl, rfl, rfl, rfl, rfl⟩),
    navFrame_update (navFrame_ensure ⟨rfl, rfl, rfl, rfl, rfl⟩),
    navFrame_update (navFrame_ensure ⟨rfl, rfl, rfl, rfl, rfl⟩),
    navFrame_update (navFrame_ensure ⟨rfl, rfl, rfl, rfl, rfl⟩),
    ⟨rfl, rfl, rfl, rfl, rfl⟩, ⟨rfl, rfl, rfl, rfl, rfl⟩, ⟨rfl, rfl, rfl, rfl, rfl⟩,
    hjump idx, hjump _, hjump _, hnext, hprev⟩

/-- C1: after every cursor-, scroll- or viewport-relevant operation
(`cursor_down`, `cursor_up`, `scroll_down`, `scroll_up`, `center_cursor`,
`jump_to_file`, `next_file`, `prev_file`, `next_hunk`, `prev_hunk`,
`toggle_reviewed`, `delete_comment_at_cursor`, `reload`), whenever
`viewport_height > 0` and the invariant held beforehand, the state
satisfies `scroll_offset ≤ cursor_line < scroll_offset + viewport_height`;
and the restoration step `ensure_cursor_visible` moves only
`scroll_offset`, never the cursor. -/
theorem ops_viewport_containment (a : App) (n idx : Nat) (nf : List DiffFile)
    (hvp : 0 < a.diff_state.viewport_height)
    (hpre : viewportContainment a) :
    viewportContainment (a.cursor_down n) ∧
    viewportContainment (a.cursor_up n) ∧
    viewportContainment (a.scroll_down n) ∧
    viewportContainment (a.scroll_up n) ∧
    viewportContainment a.center_cursor ∧
    viewportContainment (a.jump_to_file idx) ∧
    viewportContainment a.next_file ∧
    viewportContainment a.prev_file ∧
    viewportContainment a.next_hunk ∧
    viewportContainment a.prev_hunk ∧
    viewportContainment a.toggle_reviewed ∧
    viewportContainment (a.delete_comment_at_cursor).1 ∧
    viewportContainment (a.reload nf) ∧
    a.ensure_cursor_visible.diff_state.cursor_line = a.diff_state.cursor_line := by
  have hjump : ∀ k, viewportContainment (a.jump_to_file k) := by
    intro k
    unfold App.jump_to_file
    split
    · refine ⟨Nat.le_refl _, ?_⟩
      show calculate_file_scroll_offset a.session a.diff_files k <
        calculate_file_scroll_offset a.session a.diff_files k + a.diff_state.viewport_height
      omega
    · exact hpre
  have hcenter : viewportContainment a.center_cursor := by
    obtain ⟨s, fs, ⟨so, sx, c, ci, vh⟩, sel, d, m⟩ := a
    simp only [viewportContainment, App.center_cursor] at *
    have hmax : max vh 1 = vh := Nat.max_eq_left hvp
    rw [hmax]
    constructor <;> omega
  have hnext : viewportContainment a.next_hunk := by
    unfold App.next_hunk
    cases hf : (hunkPositions a).find? (fun p => decide (a.diff_state.cursor_line < p)) with
    | some p => exact containment_ensure_update _ hvp
    | none => exact hpre
  have hprev : viewportContainment a.prev_hunk := by
    unfold App.prev_hunk
    cases hf : (hunkPositions a).reverse.find?
        (fun p => decide (p < a.diff_state.cursor_line)) with
    | some p => exact containment_ensure_update _ hvp
    | none => exact containment_ensure_update _ hvp
  have htog : viewportContainment a.toggle_reviewed := by
    unfold App.toggle_reviewed
    repeat' split
    all_goals first
      | exact hpre
      | exact ensure_containment _ hvp
  have hdel : viewportContainment (a.delete_comment_at_cursor).1 := by
    unfold viewportContainment
    rw [delete_fst_diff_state]
    exact hpre
  have hrel : viewportContainment (a.reload nf) := by
    unfold App.reload
    dsimp only
    split
    · refine ⟨Nat.le_refl 0, ?_⟩
      show 0 < 0 + a.diff_state.viewport_height
      omega
    · apply containment_ensure_update
      split
      · dsimp only
        rw [jump_vh_eq]
        exact hvp
      · dsimp only
        rw [jump_vh_eq]
        exact hvp
  exact ⟨containment_ensure_update _ hvp, containment_ensure_update _ hvp,
    containment_ensure_update _ hvp, containment_ensure_update _ hvp,
    hcenter, hjump idx, hjump _, hjump _, hnext, hprev, htog, hdel, hrel, rfl⟩

/-! ## Helper lemmas on the association lists and heights -/

theorem alookup_aupdate_self {α β : Type} [DecidableEq α] (k : α) (g : β → β)
    (l : List (α × β)) : alookup k (aupdate k g l) = (alookup k l).map g := by
  induction l with
  | nil => rfl
  | cons p rest ih =>
    obtain ⟨k₁, v⟩ := p
    rcases eq_or_ne k₁ k with heq | hne
    · show alookup k (if k₁ = k then (k₁, g v) :: rest else (k₁, v) :: aupdate k g rest) = _
      rw [if_pos heq]
      show (if k₁ = k then some (g v) else alookup k rest) = _
      rw [if_pos heq]
      show _ = (if k₁ = k then some v else alookup k rest).map g
      rw [if_pos heq]
      rfl
    · show alookup k (if k₁ = k then (k₁, g v) :: rest else (k₁, v) :: aupdate k g rest) = _
      rw [if_neg hne]
      show (if k₁ = k then some v else alookup k (aupdate k g rest)) = _
      rw [if_neg hne, ih]
      show _ = (if k₁ = k then some v else alookup k rest).map g
      rw [if_neg hne]

theorem alookup_aupdate_ne {α β : Type} [DecidableEq α] (k q : α) (hne : k ≠ q) (g : β → β)
    (l : List (α × β)) : alookup q (aupdate k g l) = alookup q l := by
  induction l with
  | nil => rfl
  | cons p rest ih =>
    obtain ⟨k₁, v⟩ := p
    rcases eq_or_ne k₁ k with heq | hk
    · show alookup q (if k₁ = k then (k₁, g v) :: rest else (k₁, v) :: aupdate k g rest) = _
      rw [if_pos heq]
      show (if k₁ = q then some (g v) else alookup q rest) = _
      have : k₁ ≠ q := by
        rw [heq]
        exact hne
      rw [if_neg this]
      show _ = (if k₁ = q then some v else alookup q rest)
      rw [if_neg this]
    · show alookup q (if k₁ = k then (k₁, g v) :: rest else (k₁, v) :: aupdate k g rest) = _
      rw [if_neg hk]
      show (if k₁ = q then some v else alookup q (aupdate k g rest)) = _
      rw [ih]
      rfl

theorem is_file_reviewed_aupdate_preserve (l : List (String × FileReview)) (p q : String)
    (g : FileReview → FileReview) (hg : ∀ r, (g r).reviewed = r.reviewed) :
    ReviewSession.is_file_reviewed ⟨aupdate p g l⟩ q = ReviewSession.is_file_reviewed ⟨l⟩ q := by
  unfold ReviewSession.is_file_reviewed
  rcases eq_or_ne p q with heq | hne
  · subst heq
    show (match alookup p (aupdate p g l) with
      | some r => r.reviewed
      | none => false) = _
    rw [alookup_aupdate_self]
    cases alookup p l with
    | none => rfl
    | some r =>
      show (g r).reviewed = r.reviewed
      exact hg r
  · show (match alookup q (aupdate p g l) with
      | some r => r.reviewed
      | none => false) = _
    rw [alookup_aupdate_ne p q hne]

theorem sum_map_congr {α : Type} (f g : α → Nat) :
    ∀ l : List α, (∀ x ∈ l, f x = g x) → (l.map f).sum = (l.map g).sum := by
  intro l
  induction l with
  | nil => intro _; rfl
  | cons x rest ih =>
    intro h
    simp only [List.map_cons, List.sum_cons]
    rw [h x (by simp), ih (fun y hy => h y (by simp [hy]))]

theorem mem_concatMapL {α β : Type} (f : α → List β) :
    ∀ (l : List α) (b : β), b ∈ concatMapL f l ↔ ∃ x ∈ l, b ∈ f x := by
  intro l
  induction l with
  | nil => intro b; simp [concatMapL]
  | cons x rest ih =>
    intro b
    show b ∈ f x ++ concatMapL f rest ↔ _
    rw [List.mem_append, ih]
    constructor
    · rintro (h1 | ⟨y, hy, hb⟩)
      · exact ⟨x, by simp, h1⟩
      · exact ⟨y, by simp [hy], hb⟩
    · rintro ⟨y, hy, hb⟩
      rcases List.mem_cons.mp hy with h1 | h2
      · subst h1
        exact Or.inl hb
      · exact Or.inr ⟨y, h2, hb⟩

theorem commentsRows_mem (cs : List Comment) (r : Row) (h : r ∈ commentsRows cs) :
    r = Row.commentLine := by
  rw [show commentsRows cs = concatMapL commentRows cs from rfl, mem_concatMapL] at h
  obtain ⟨c, _, hr⟩ := h
  exact List.eq_of_mem_replicate hr

theorem splitChar_ne_nil (sep : Char) (l : List Char) : splitChar sep l ≠ [] := by
  cases l with
  | nil => simp [splitChar]
  | cons c rest =>
    simp only [splitChar]
    split
    · simp
    · split <;> simp

theorem splitChar_length (sep : Char) (l : List Char) :
    (splitChar sep l).length = l.count sep + 1 := by
  induction l with
  | nil => simp [splitChar]
  | cons c rest ih =>
    simp only [splitChar]
    rcases eq_or_ne c sep with heq | hne
    · rw [if_pos heq]
      simp only [List.length_cons, List.count_cons, ih]
      simp [heq]
    · rw [if_neg hne]
      cases hs : splitChar sep rest with
      | nil => exact absurd hs (splitChar_ne_nil sep rest)
      | cons l₁ ls =>
        have hlen := ih
        rw [hs] at hlen
        simp only [List.length_cons] at hlen
        have hbeq : (c == sep) = false := by
          simp [hne]
        simp [List.count_cons, hbeq]
        omega

/-- C9: for every comment, `comment_display_lines` equals
`2 + (number of embedded line breaks in the content + 1)` — one header
line, one line per content line, one footer line. -/
theorem comment_display_lines_breaks (c : Comment) :
    comment_display_lines c = 2 + (c.content.toList.count '\n' + 1) := by
  unfold comment_display_lines
  rw [splitChar_length]

/-! ## C2: render heights and the effect of marking one file reviewed -/

/-- `toggle_reviewed` flips the current file's flag in the session and
leaves the diff file list unchanged (when the current file exists and its
path is in the session). -/
theorem toggle_state (a : App) (f : DiffFile) (r : FileReview)
    (hf : a.current_file = some f) (hr : alookup f.path a.session.files = some r) :
    a.toggle_reviewed.session =
      ⟨aupdate f.path (fun r₁ => { r₁ with reviewed := !r₁.reviewed }) a.session.files⟩ ∧
    a.toggle_reviewed.diff_files = a.diff_files := by
  unfold App.toggle_reviewed
  simp only [hf, hr]
  exact ⟨rfl, rfl⟩

/-- Replacing the height of the unique file with path `f.path` by 1 changes
the height sum by exactly `file_render_height s f - 1`. -/
theorem total_lines_set_reviewed (s₁ s : ReviewSession) (f : DiffFile)
    (hothers : ∀ g : DiffFile, g.path ≠ f.path →
      file_render_height s₁ g = file_render_height s g)
    (hself : ∀ g : DiffFile, g.path = f.path → file_render_height s₁ g = 1) :
    ∀ files : List DiffFile, f ∈ files → (files.map (fun g => g.path)).Nodup →
      total_lines s₁ files + file_render_height s f = total_lines s files + 1 := by
  intro files
  induction files with
  | nil =>
    intro h
    cases h
  | cons g rest ih =>
    intro hmem hnodup
    rcases List.pairwise_cons.mp hnodup with ⟨hg, hrest⟩
    show (file_render_height s₁ g + total_lines s₁ rest) + _ =
      (file_render_height s g + total_lines s rest) + 1
    rcases List.mem_cons.mp hmem with heq | hin
    · subst heq
      rw [hself f rfl]
      have hsame : total_lines s₁ rest = total_lines s rest := by
        apply sum_map_congr
        intro x hx
        apply hothers
        intro hpx
        exact (hg x.path (List.mem_map_of_mem (fun g => g.path) hx)) hpx.symm
      rw [hsame]
      omega
    · have hgp : g.path ≠ f.path := by
        intro hpx
        exact (hg f.path (List.mem_map_of_mem (fun g => g.path) hin)) hpx
      rw [hothers g hgp]
      have := ih hin hrest
      omega

/-- C2: `file_render_height` is 1 for reviewed files and
`2 + max(1, Σ (1 + line count))` otherwise; `total_lines` is the sum of
the heights in snapshot order; and toggling the (unreviewed) current file
to reviewed shrinks `total_lines` by exactly `old height - 1` while the
height of every other file (every file with a different path) is
unchanged. -/
theorem file_heights_and_reviewed_collapse (a : App) (f : DiffFile) (r : FileReview)
    (hf : a.current_file = some f)
    (hr : alookup f.path a.session.files = some r)
    (hrev : r.reviewed = false)
    (hnodup : (a.diff_files.map (fun g => g.path)).Nodup) :
    (∀ g : DiffFile,
      (a.session.is_file_reviewed g.path = true → file_render_height a.session g = 1) ∧
      (a.session.is_file_reviewed g.path = false →
        file_render_height a.session g =
          2 + max 1 ((g.hunks.map (fun h => h.lines.length + 1)).sum))) ∧
    total_lines a.session a.diff_files =
      (a.diff_files.map (file_render_height a.session)).sum ∧
    total_lines a.toggle_reviewed.session a.toggle_reviewed.diff_files =
      total_lines a.session a.diff_files - (file_render_height a.session f - 1) ∧
    total_lines a.toggle_reviewed.session a.toggle_reviewed.diff_files +
        file_render_height a.session f =
      total_lines a.session a.diff_files + 1 ∧
    (∀ g ∈ a.diff_files, g.path ≠ f.path →
      file_render_height a.toggle_reviewed.session g = file_render_height a.session g) := by
  obtain ⟨hsess, hfiles⟩ := toggle_state a f r hf hr
  have hmem : f ∈ a.diff_files := by
    unfold App.current_file at hf
    exact List.get?_mem hf
  have hothers : ∀ g : DiffFile, g.path ≠ f.path →
      file_render_height a.toggle_reviewed.session g = file_render_height a.session g := by
    intro g hgp
    rw [hsess]
    unfold file_render_height
    rw [show ReviewSession.is_file_reviewed
        ⟨aupdate f.path (fun r₁ => { r₁ with reviewed := !r₁.reviewed }) a.session.files⟩ g.path =
        a.session.is_file_reviewed g.path from by
      unfold ReviewSession.is_file_reviewed
      rw [alookup_aupdate_ne f.path g.path (fun h => hgp h.symm)]]
  have hself : ∀ g : DiffFile, g.path = f.path →
      file_render_height a.toggle_reviewed.session g = 1 := by
    intro g hgp
    rw [hsess]
    unfold file_render_height
    have hrev₁ : ReviewSession.is_file_reviewed
        ⟨aupdate f.path (fun r₁ => { r₁ with reviewed := !r₁.reviewed }) a.session.files⟩
        g.path = true := by
      unfold ReviewSession.is_file_reviewed
      rw [hgp, alookup_aupdate_self, hr]
      show (!r.reviewed) = true
      rw [hrev]
      rfl
    rw [hrev₁]
    rfl
  have hunrev : a.session.is_file_reviewed f.path = false := by
    unfold ReviewSession.is_file_reviewed
    rw [hr]
    exact hrev
  have hsum := total_lines_set_reviewed a.toggle_reviewed.session a.session f hothers hself
    a.diff_files hmem hnodup
  have hpos : 1 ≤ file_render_height a.session f := by
    unfold file_render_height
    split <;> omega
  refine ⟨?_, rfl, ?_, ?_, fun g _ hgp => hothers g hgp⟩
  · intro g
    constructor
    · intro hrg
      unfold file_render_height
      rw [hrg]
      rfl
    · intro hrg
      unfold file_render_height
      rw [hrg]
      simp only [Bool.false_eq_true, if_false]
      rw [Nat.max_comm]
  · rw [hfiles]
    omega
  · rw [hfiles]
    omega

/-! ## C6: adding a line comment does not change `total_lines` -/

/-- The line-comment branch of `save_comment` (src/app.rs:753-760): the
comment is appended to the current file's per-line list through
`get_file_mut`/`add_line_comment`; the path, line and comment are taken as
parameters here (the source derives them from the cursor and the input
buffer). -/
def App.add_line_comment_at (a : App) (p : String) (line : Nat) (c : Comment) : App :=
  match alookup p a.session.files with
  | none => a
  | some _ =>
    { a with
      session := ⟨aupdate p (fun r => r.add_line_comment line c) a.session.files⟩,
      dirty := true }

theorem add_line_comment_preserves_reviewed (line : Nat) (c : Comment) (r : FileReview) :
    (r.add_line_comment line c).reviewed = r.reviewed := by
  unfold FileReview.add_line_comment
  cases alookup line r.line_comments <;> rfl

/-- Amended C6: adding a line comment never changes `total_lines()` (the
source's `file_render_height` ignores comment blocks entirely); the
display height of a break-free comment is nonetheless 3. -/
theorem add_line_comment_total_unchanged (a : App) (p : String) (line : Nat) (c : Comment)
    (hnb : c.content.toList.count '\n' = 0) :
    total_lines (a.add_line_comment_at p line c).session
        (a.add_line_comment_at p line c).diff_files =
      total_lines a.session a.diff_files ∧
    comment_display_lines c = 3 := by
  constructor
  · unfold App.add_line_comment_at
    cases hl : alookup p a.session.files with
    | none => rfl
    | some r =>
      show total_lines ⟨aupdate p (fun r => r.add_line_comment line c) a.session.files⟩
        a.diff_files = _
      unfold total_lines
      apply sum_map_congr
      intro g _
      unfold file_render_height
      rw [is_file_reviewed_aupdate_preserve a.session.files p g.path _
        (add_line_comment_preserves_reviewed line c)]
  · rw [comment_display_lines_breaks, hnb]

/-! ## C3: `get_line_at_cursor` against the flattened line space -/

/-- The data-model invariant of the spec (§3) needed to resolve diff lines:
every diff line carries at least one line number, and deletion lines carry
no new line number. -/
def LinesWF (a : App) : Prop :=
  ∀ f ∈ a.diff_files, ∀ h ∈ f.hunks, ∀ d ∈ h.lines,
    (d.old_lineno ≠ none ∨ d.new_lineno ≠ none) ∧
      (d.origin = LineOrigin.Deletion → d.new_lineno = none)

instance (a : App) : Decidable (LinesWF a) := by
  unfold LinesWF
  infer_instance

/-- The resolution rule exactly as the claim words it: a deletion line
resolves to its old line number with side `Old`; every other diff line
resolves to its new line number with side `New`, falling back to the old
number when the new one is absent. -/
def claimResolve (d : DiffLine) : Option (Nat × LineSide) :=
  match d.origin with
  | LineOrigin.Deletion => d.old_lineno.map (fun ln => (ln, LineSide.Old))
  | _ =>
    match d.new_lineno with
    | some ln => some (ln, LineSide.New)
    | none => d.old_lineno.map (fun ln => (ln, LineSide.Old))

/-- A diff-line row of the flattened space comes from some hunk of some
file of the snapshot. -/
theorem diffRow_mem (a : App) (d : DiffLine)
    (hmem : Row.diffLine d ∈ flattenRows a) :
    ∃ f ∈ a.diff_files, ∃ h ∈ f.hunks, d ∈ h.lines := by
  unfold flattenRows at hmem
  rw [mem_concatMapL] at hmem
  obtain ⟨f, hf, hrow⟩ := hmem
  unfold fileRows at hrow
  rcases List.mem_cons.mp hrow with h1 | h2
  · cases h1
  refine ⟨f, hf, ?_⟩
  rcases hrev : a.session.is_file_reviewed f.path with hfalse | htrue
  · rw [hrev] at h2
    simp only [Bool.false_eq_true, if_false] at h2
    rcases List.mem_append.mp h2 with h3 | h4
    · rcases List.mem_append.mp h3 with h5 | h6
      · cases commentsRows_mem _ _ h5
      · rcases hbin : f.is_binary || f.hunks.isEmpty with hbf | hbt
        · rw [hbin] at h6
          simp only [Bool.false_eq_true, if_false] at h6
          rw [mem_concatMapL] at h6
          obtain ⟨h, hh, hrow₁⟩ := h6
          refine ⟨h, hh, ?_⟩
          rcases List.mem_cons.mp hrow₁ with h7 | h8
          · cases h7
          · rw [mem_concatMapL] at h8
            obtain ⟨d₁, hd₁, hrow₂⟩ := h8
            rcases List.mem_cons.mp hrow₂ with h9 | h10
            · injection h9 with h9
              rw [h9]
              exact hd₁
            · rcases List.mem_append.mp h10 with h11 | h12
              · cases commentsRows_mem _ _ h11
              · cases commentsRows_mem _ _ h12
        · rw [hbin] at h6
          simp only [if_true] at h6
          rcases List.mem_singleton.mp h6 with h7
          cases h7
    · rcases List.mem_singleton.mp h4 with h5
      cases h5
  · rw [hrev] at h2
    simp only [if_true] at h2
    cases h2

/-- C3: `get_line_at_cursor` returns `some` exactly when the cursor sits on
a diff-line row of the flattened line space (never on a file header, hunk
header, comment block, placeholder or spacing row), and the value follows
the claim's resolution rule: deletion lines give `(old, Old)`, all other
lines give `(new, New)` with fallback to the old number when the new one
is absent. -/
theorem get_line_at_cursor_spec (a : App) (hwf : LinesWF a) :
    (a.get_line_at_cursor.isSome = true ↔
      ∃ d, (flattenRows a).get? a.diff_state.cursor_line = some (Row.diffLine d)) ∧
    (∀ d, (flattenRows a).get? a.diff_state.cursor_line = some (Row.diffLine d) →
      a.get_line_at_cursor = claimResolve d ∧ (claimResolve d).isSome = true) := by
  have hmaster := get_line_at_cursor_eq_row a
  have hres : ∀ d, (flattenRows a).get? a.diff_state.cursor_line = some (Row.diffLine d) →
      resolveLine d = claimResolve d ∧ (claimResolve d).isSome = true := by
    intro d hd
    have hdmem : Row.diffLine d ∈ flattenRows a := List.get?_mem hd
    obtain ⟨f, hf, h, hh, hdl⟩ := diffRow_mem a d hdmem
    obtain ⟨hnum, hdel⟩ := hwf f hf h hh d hdl
    constructor
    · unfold resolveLine claimResolve
      cases horig : d.origin with
      | Deletion =>
        rw [hdel horig]
        cases d.old_lineno <;> rfl
      | Addition =>
        cases d.new_lineno with
        | some ln => rfl
        | none => cases d.old_lineno <;> rfl
      | Context =>
        cases d.new_lineno with
        | some ln => rfl
        | none => cases d.old_lineno <;> rfl
    · unfold claimResolve
      cases horig : d.origin with
      | Deletion =>
        have hnew := hdel horig
        rcases hnum with hold | hnewne
        · cases hol : d.old_lineno with
          | none => exact absurd hol hold
          | some ln => rfl
        · exact absurd hnew hnewne
      | Addition =>
        cases hnl : d.new_lineno with
        | some ln => rfl
        | none =>
          rcases hnum with hold | hnewne
          · cases hol : d.old_lineno with
            | none => exact absurd hol hold
            | some ln => rfl
          · exact absurd hnl hnewne
      | Context =>
        cases hnl : d.new_lineno with
        | some ln => rfl
        | none =>
          rcases hnum with hold | hnewne
          · cases hol : d.old_lineno with
            | none => exact absurd hol hold
            | some ln => rfl
          · exact absurd hnl hnewne
  constructor
  · rw [hmaster]
    cases hrow : (flattenRows a).get? a.diff_state.cursor_line with
    | none =>
      simp
    | some row =>
      cases row with
      | diffLine d =>
        obtain ⟨heq, hsome⟩ := hres d hrow
        constructor
        · intro _
          exact ⟨d, rfl⟩
        · intro _
          show (resolveLine d).isSome = true
          rw [heq]
          exact hsome
      | fileHeader => simp
      | commentLine => simp
      | placeholder => simp
      | hunkHeader => simp
      | spacing => simp
  · intro d hd
    obtain ⟨heq, hsome⟩ := hres d hd
    rw [hmaster, hd]
    exact ⟨heq, hsome⟩

/-! ## C7: hunk navigation -/

theorem ensure_cursor_eq (x : App) :
    x.ensure_cursor_visible.diff_state.cursor_line = x.diff_state.cursor_line := rfl

theorem next_hunk_cursor (a : App) (x : Nat)
    (hx : (hunkPositions a).find? (fun p => decide (a.diff_state.cursor_line < p)) = some x) :
    a.next_hunk.diff_state.cursor_line = x := by
  unfold App.next_hunk
  simp only [hx]
  rw [update_cursor_eq, ensure_cursor_eq]

theorem next_hunk_none (a : App)
    (hx : (hunkPositions a).find? (fun p => decide (a.diff_state.cursor_line < p)) = none) :
    a.next_hunk = a := by
  unfold App.next_hunk
  simp only [hx]

theorem prev_hunk_cursor (a : App) (x : Nat)
    (hx : (hunkPositions a).reverse.find?
      (fun p => decide (p < a.diff_state.cursor_line)) = some x) :
    a.prev_hunk.diff_state.cursor_line = x := by
  unfold App.prev_hunk
  simp only [hx]
  rw [update_cursor_eq, ensure_cursor_eq]

theorem prev_hunk_none (a : App)
    (hx : (hunkPositions a).reverse.find?
      (fun p => decide (p < a.diff_state.cursor_line)) = none) :
    a.prev_hunk.diff_state.cursor_line = 0 := by
  unfold App.prev_hunk
  simp only [hx]
  rw [update_cursor_eq, ensure_cursor_eq]

/-- Amended C7: `next_hunk` moves the cursor to the nearest hunk-header
position strictly after the cursor of the *approximate* layout — the walk
counts each file-level comment as a single line and ignores line-comment
blocks entirely (src/app.rs:368-372 uses `file_comments.len()`), so the
positions are the hunk-header indices of `approxRows`, not of the
flattened line space; `prev_hunk` symmetrically takes the nearest such
position strictly before the cursor, or position 0 when none exists;
`next_hunk` leaves the whole state unchanged when no position follows the
cursor.  Reviewed files' interiors are skipped in the walk. -/
theorem hunk_nav_spec (a : App) :
    ((∃ p ∈ headerIdxs (approxRows a) 0, a.diff_state.cursor_line < p) →
      a.next_hunk.diff_state.cursor_line ∈ headerIdxs (approxRows a) 0 ∧
      a.diff_state.cursor_line < a.next_hunk.diff_state.cursor_line ∧
      (∀ q ∈ headerIdxs (approxRows a) 0, a.diff_state.cursor_line < q →
        a.next_hunk.diff_state.cursor_line ≤ q)) ∧
    ((∀ p ∈ headerIdxs (approxRows a) 0, p ≤ a.diff_state.cursor_line) →
      a.next_hunk = a) ∧
    ((∃ p ∈ headerIdxs (approxRows a) 0, p < a.diff_state.cursor_line) →
      a.prev_hunk.diff_state.cursor_line ∈ headerIdxs (approxRows a) 0 ∧
      a.prev_hunk.diff_state.cursor_line < a.diff_state.cursor_line ∧
      (∀ q ∈ headerIdxs (approxRows a) 0, q < a.diff_state.cursor_line →
        q ≤ a.prev_hunk.diff_state.cursor_line)) ∧
    ((∀ p ∈ headerIdxs (approxRows a) 0, ¬ p < a.diff_state.cursor_line) →
      a.prev_hunk.diff_state.cursor_line = 0) := by
  have hP : hunkPositions a = headerIdxs (approxRows a) 0 := hunkPositions_eq_headerIdxs a
  have hsorted : (hunkPositions a).Pairwise (· < ·) := by
    rw [hP]
    exact headerIdxs_sorted _ 0
  refine ⟨?_, ?_, ?_, ?_⟩
  · rintro ⟨p, hpmem, hplt⟩
    cases hfind : (hunkPositions a).find?
        (fun q => decide (a.diff_state.cursor_line < q)) with
    | none =>
      have hall := List.find?_eq_none.mp hfind p (by rw [hP]; exact hpmem)
      simp at hall
      omega
    | some x =>
      obtain ⟨hxmem, hcx, hxmin⟩ := find_gt_min _ _ hsorted x hfind
      rw [next_hunk_cursor a x hfind]
      rw [hP] at hxmem
      refine ⟨hxmem, hcx, ?_⟩
      intro q hq hcq
      exact hxmin q (by rw [hP]; exact hq) hcq
  · intro hall
    apply next_hunk_none
    apply List.find?_eq_none.mpr
    intro x hx
    have := hall x (by rw [hP] at hx; exact hx)
    simp
    omega
  · rintro ⟨p, hpmem, hplt⟩
    have hsortedRev : (hunkPositions a).reverse.Pairwise (· > ·) :=
      List.pairwise_reverse.mpr hsorted
    cases hfind : (hunkPositions a).reverse.find?
        (fun q => decide (q < a.diff_state.cursor_line)) with
    | none =>
      have hall := List.find?_eq_none.mp hfind p
        (by rw [List.mem_reverse, hP]; exact hpmem)
      simp at hall
      omega
    | some x =>
      obtain ⟨hxmem, hxc, hxmax⟩ := find_lt_max_desc _ _ hsortedRev x hfind
      rw [prev_hunk_cursor a x hfind]
      rw [List.mem_reverse, hP] at hxmem
      refine ⟨hxmem, hxc, ?_⟩
      intro q hq hcq
      exact hxmax q (by rw [List.mem_reverse, hP]; exact hq) hcq
  · intro hall
    apply prev_hunk_none
    apply List.find?_eq_none.mpr
    intro x hx
    have := hall x (by rw [List.mem_reverse, hP] at hx; exact hx)
    simp
    omega

/-- A one-file state with one file-level comment of one content line and
one single-line hunk: the comment block spans rows 1-3 of the flattened
line space, the hunk header is row 4, but the hunk-navigation walk counts
the comment as one line and places the hunk header at position 2. -/
def comment7 : Comment := { content := "c", comment_type := CommentType.Note, side := none }

def line7 : DiffLine := { origin := LineOrigin.Context, old_lineno := some 1, new_lineno := some 1, content := "x" }

def file7 : DiffFile := { path := "a", status := FileStatus.Modified, is_binary := false, hunks := [{ header := "@@", lines := [line7] }] }

def review7 : FileReview := { reviewed := false, file_comments := [comment7], line_comments := [] }

def app7 : App := { session := ⟨[("a", review7)]⟩, diff_files := [file7], diff_state := { scroll_offset := 0, scroll_x := 0, cursor_line := 0, current_file_idx := 0, viewport_height := 10 }, file_list_selected := 0, dirty := false, message := none }

/-- Counterexample to C7 as stated: from cursor 0, `next_hunk` moves the
cursor to position 2, which in the flattened line space is a comment row —
the nearest hunk-header row of the flattened space after the cursor is
position 4. -/
theorem next_hunk_misses_flattened_header :
    app7.next_hunk.diff_state.cursor_line = 2 ∧
    (flattenRows app7).get? 2 = some Row.commentLine ∧
    (flattenRows app7).get? 4 = some Row.hunkHeader := by
  decide

/-! ## C8: cursor round trips -/

/-- A `cursor_down`/`cursor_up` call with its line count. -/
inductive CursorMove where
  | down (n : Nat)
  | up (n : Nat)
deriving DecidableEq, Repr

/-- Execute a sequence of cursor moves. -/
def applyMoves (a : App) : List CursorMove → App
  | [] => a
  | CursorMove.down n :: rest => applyMoves (a.cursor_down n) rest
  | CursorMove.up n :: rest => applyMoves (a.cursor_up n) rest

/-- The signed sum of a sequence of cursor moves. -/
def netMove : List CursorMove → Int
  | [] => 0
  | CursorMove.down n :: rest => n + netMove rest
  | CursorMove.up n :: rest => -(n : Int) + netMove rest

theorem cursor_down_cursor (a : App) (n : Nat) :
    (a.cursor_down n).diff_state.cursor_line =
      min (a.diff_state.cursor_line + n) (total_lines a.session a.diff_files - 1) := by
  unfold App.cursor_down
  rw [update_cursor_eq, ensure_cursor_eq]

theorem cursor_up_cursor (a : App) (n : Nat) :
    (a.cursor_up n).diff_state.cursor_line = a.diff_state.cursor_line - n := by
  unfold App.cursor_up
  rw [update_cursor_eq, ensure_cursor_eq]

theorem cursor_down_frame (a : App) (n : Nat) :
    (a.cursor_down n).session = a.session ∧ (a.cursor_down n).diff_files = a.diff_files := by
  have h : navFrame a (a.cursor_down n) :=
    navFrame_update (navFrame_ensure ⟨rfl, rfl, rfl, rfl, rfl⟩)
  exact ⟨h.1, h.2.1⟩

theorem cursor_up_frame (a : App) (n : Nat) :
    (a.cursor_up n).session = a.session ∧ (a.cursor_up n).diff_files = a.diff_files := by
  have h : navFrame a (a.cursor_up n) :=
    navFrame_update (navFrame_ensure ⟨rfl, rfl, rfl, rfl, rfl⟩)
  exact ⟨h.1, h.2.1⟩

/-- Unclamped invariant: as long as every prefix keeps the ideal cursor in
`[0, total_lines - 1]`, the actual cursor tracks the ideal signed sum. -/
theorem applyMoves_tracks (ms : List CursorMove) :
    ∀ a : App, a.diff_state.cursor_line < total_lines a.session a.diff_files →
      (∀ k : Nat, 0 ≤ (a.diff_state.cursor_line : Int) + netMove (ms.take k) ∧
        (a.diff_state.cursor_line : Int) + netMove (ms.take k) <
          (total_lines a.session a.diff_files : Int)) →
      ((applyMoves a ms).diff_state.cursor_line : Int) =
          (a.diff_state.cursor_line : Int) + netMove ms ∧
        (applyMoves a ms).session = a.session ∧
        (applyMoves a ms).diff_files = a.diff_files := by
  induction ms with
  | nil =>
    intro a hc hb
    refine ⟨?_, rfl, rfl⟩
    show ((a.diff_state.cursor_line : Int) = a.diff_state.cursor_line + netMove [])
    unfold netMove
    omega
  | cons m rest ih =>
    intro a hc hb
    have hb1 := hb 1
    rw [List.take_succ_cons, List.take_zero] at hb1
    cases m with
    | down n =>
      have hstep : ((a.cursor_down n).diff_state.cursor_line : Int) =
          (a.diff_state.cursor_line : Int) + n := by
        rw [cursor_down_cursor]
        have hnet1 : netMove [CursorMove.down n] = (n : Int) := by
          simp [netMove]
        rw [hnet1] at hb1
        omega
      obtain ⟨hsess, hfiles⟩ := cursor_down_frame a n
      have htot : total_lines (a.cursor_down n).session (a.cursor_down n).diff_files =
          total_lines a.session a.diff_files := by
        rw [hsess, hfiles]
      have hc₁ : (a.cursor_down n).diff_state.cursor_line <
          total_lines (a.cursor_down n).session (a.cursor_down n).diff_files := by
        rw [htot, cursor_down_cursor]
        omega
      have hb₁ : ∀ k : Nat,
          0 ≤ ((a.cursor_down n).diff_state.cursor_line : Int) + netMove (rest.take k) ∧
          ((a.cursor_down n).diff_state.cursor_line : Int) + netMove (rest.take k) <
            (total_lines (a.cursor_down n).session (a.cursor_down n).diff_files : Int) := by
        intro k
        have hbk := hb (k + 1)
        rw [List.take_succ_cons] at hbk
        have hnetc : netMove (CursorMove.down n :: rest.take k) =
            (n : Int) + netMove (rest.take k) := rfl
        rw [hnetc] at hbk
        rw [htot, hstep]
        omega
      obtain ⟨hcur, hs, hf⟩ := ih (a.cursor_down n) hc₁ hb₁
      refine ⟨?_, ?_, ?_⟩
      · show ((applyMoves (a.cursor_down n) rest).diff_state.cursor_line : Int) = _
        rw [hcur, hstep]
        show _ = (a.diff_state.cursor_line : Int) + ((n : Int) + netMove rest)
        omega
      · show (applyMoves (a.cursor_down n) rest).session = a.session
        rw [hs, hsess]
      · show (applyMoves (a.cursor_down n) rest).diff_files = a.diff_files
        rw [hf, hfiles]
    | up n =>
      have hstep : ((a.cursor_up n).diff_state.cursor_line : Int) =
          (a.diff_state.cursor_line : Int) - n := by
        rw [cursor_up_cursor]
        have hnet1 : netMove [CursorMove.up n] = -(n : Int) := by
          simp [netMove]
        rw [hnet1] at hb1
        omega
      obtain ⟨hsess, hfiles⟩ := cursor_up_frame a n
      have htot : total_lines (a.cursor_up n).session (a.cursor_up n).diff_files =
          total_lines a.session a.diff_files := by
        rw [hsess, hfiles]
      have hc₁ : (a.cursor_up n).diff_state.cursor_line <
          total_lines (a.cursor_up n).session (a.cursor_up n).diff_files := by
        rw [htot, cursor_up_cursor]
        omega
      have hb₁ : ∀ k : Nat,
          0 ≤ ((a.cursor_up n).diff_state.cursor_line : Int) + netMove (rest.take k) ∧
          ((a.cursor_up n).diff_state.cursor_line : Int) + netMove (rest.take k) <
            (total_lines (a.cursor_up n).session (a.cursor_up n).diff_files : Int) := by
        intro k
        have hbk := hb (k + 1)
        rw [List.take_succ_cons] at hbk
        have hnetc : netMove (CursorMove.up n :: rest.take k) =
            -(n : Int) + netMove (rest.take k) := rfl
        rw [hnetc] at hbk
        rw [htot, hstep]
        omega
      obtain ⟨hcur, hs, hf⟩ := ih (a.cursor_up n) hc₁ hb₁
      refine ⟨?_, ?_, ?_⟩
      · show ((applyMoves (a.cursor_up n) rest).diff_state.cursor_line : Int) = _
        rw [hcur, hstep]
        show _ = (a.diff_state.cursor_line : Int) + (-(n : Int) + netMove rest)
        omega
      · show (applyMoves (a.cursor_up n) rest).session = a.session
        rw [hs, hsess]
      · show (applyMoves (a.cursor_up n) rest).diff_files = a.diff_files
        rw [hf, hfiles]

/-- Amended C8: a zero-net sequence of `cursor_down`/`cursor_up` calls
returns the cursor to its starting value provided no intermediate clamping
occurs — i.e. every prefix keeps the ideal (signed) cursor within
`[0, total_lines - 1]`.  Without that proviso the claim fails (saturation
loses information; see the counterexample). -/
theorem cursor_round_trip (a : App) (ms : List CursorMove)
    (hc : a.diff_state.cursor_line < total_lines a.session a.diff_files)
    (hb : ∀ k : Nat, 0 ≤ (a.diff_state.cursor_line : Int) + netMove (ms.take k) ∧
      (a.diff_state.cursor_line : Int) + netMove (ms.take k) <
        (total_lines a.session a.diff_files : Int))
    (hzero : netMove ms = 0) :
    (applyMoves a ms).diff_state.cursor_line = a.diff_state.cursor_line := by
  obtain ⟨hcur, _, _⟩ := applyMoves_tracks ms a hc hb
  rw [hzero] at hcur
  omega

/-- A one-file state of total height 5 with the cursor at 2. -/
def app8 : App := { session := ⟨[("a", { reviewed := false, file_comments := [], line_comments := [] })]⟩, diff_files := [{ path := "a", status := FileStatus.Modified, is_binary := false, hunks := [{ header := "@@", lines := [{ origin := LineOrigin.Context, old_lineno := some 1, new_lineno := some 1, content := "x" }, { origin := LineOrigin.Addition, old_lineno := none, new_lineno := some 2, content := "y" }] }] }], diff_state := { scroll_offset := 0, scroll_x := 0, cursor_line := 2, current_file_idx := 0, viewport_height := 10 }, file_list_selected := 0, dirty := false, message := none }

/-- Counterexample to C8 as stated: from cursor 2 with `total_lines() = 5`,
the zero-net sequence `cursor_down 10; cursor_up 10` ends at cursor 0, not
2 — clamping at the bottom edge loses the offset. -/
theorem cursor_round_trip_cex :
    netMove [CursorMove.down 10, CursorMove.up 10] = 0 ∧
    app8.diff_state.cursor_line = 2 ∧
    total_lines app8.session app8.diff_files = 5 ∧
    (applyMoves app8 [CursorMove.down 10, CursorMove.up 10]).diff_state.cursor_line = 0 := by
  decide

/-! ## C4: `delete_comment_at_cursor` on a mixed-side per-line list

`find_comment_at_cursor` reports the index of a line comment by its
enumeration position in the full mixed-side stored list
(src/app.rs:651, 668: `for (idx, comment) in comments.iter().enumerate()`),
while `delete_comment_at_cursor` re-derives the storage position by
counting only same-side entries up to that index (src/app.rs:700-712,
"Find the actual index by counting comments with matching side").  The two
conventions disagree as soon as the list mixes sides: below, the Old-side
comment sits at storage position 1 but is the 0th Old-side entry, so
deletion looks for a second Old-side entry, finds none, and deletes
nothing. -/

/-- State with one deleted line (old number 5) whose per-line comment list
is `[New-side, Old-side]`, cursor on the first row of the Old-side
comment's block (flattened row 3). -/
def app4 : App := { session := ⟨[("a", { reviewed := false, file_comments := [], line_comments := [(5, [{ content := "n", comment_type := CommentType.Note, side := some LineSide.New }, { content := "o", comment_type := CommentType.Note, side := some LineSide.Old }])] })]⟩, diff_files := [{ path := "a", status := FileStatus.Modified, is_binary := false, hunks := [{ header := "@@", lines := [{ origin := LineOrigin.Deletion, old_lineno := some 5, new_lineno := none, content := "x" }] }] }], diff_state := { scroll_offset := 0, scroll_x := 0, cursor_line := 3, current_file_idx := 0, viewport_height := 10 }, file_list_selected := 0, dirty := false, message := none }

/-- C4 failing input: the cursor lies inside the Old-side line-comment
block (the resolver itself says so), yet `delete_comment_at_cursor`
deletes nothing and returns `false`, leaving the state unchanged — the
claimed behavior is to remove exactly that comment and return `true`. -/
theorem delete_comment_sidefilter_bug :
    app4.find_comment_at_cursor =
      some (CommentLocation.lineComment "a" 5 LineSide.Old 1) ∧
    (flattenRows app4).get? 3 = some Row.commentLine ∧
    app4.delete_comment_at_cursor = (app4, false) := by
  decide

/-! ## C5: the reload remap -/

/-- The scroll offset `ensure_cursor_visible` produces from a cursor, a
scroll offset and a viewport height (src/app.rs:307-317). -/
def ensureScrollVal (cursor scroll vh : Nat) : Nat :=
  let viewport := max vh 1
  let so₁ := if cursor < scroll then cursor else scroll
  if so₁ + viewport ≤ cursor then cursor - viewport + 1 else so₁

theorem ensure_scroll_eq (x : App) :
    x.ensure_cursor_visible.diff_state.scroll_offset =
      ensureScrollVal x.diff_state.cursor_line x.diff_state.scroll_offset
        x.diff_state.viewport_height := rfl

theorem positionAux_bounds {α : Type} (p : α → Bool) :
    ∀ (l : List α) (i j : Nat), positionAux p l i = some j → i ≤ j ∧ j < i + l.length := by
  intro l
  induction l with
  | nil =>
    intro i j h
    cases h
  | cons x rest ih =>
    intro i j h
    simp only [positionAux] at h
    by_cases hp : p x
    · rw [if_pos hp] at h
      injection h with h
      subst h
      simp [List.length_cons]
    · rw [if_neg hp] at h
      have := ih (i + 1) j h
      simp [List.length_cons]
      omega

theorem position_lt_length {α : Type} (p : α → Bool) (l : List α) (j : Nat)
    (h : position p l = some j) : j < l.length := by
  have := positionAux_bounds p l 0 j h
  omega

theorem file_render_height_pos (s : ReviewSession) (f : DiffFile) :
    1 ≤ file_render_height s f := by
  unfold file_render_height
  split <;> omega

theorem total_lines_pos (s : ReviewSession) (fs : List DiffFile) (h : fs ≠ []) :
    0 < total_lines s fs := by
  cases fs with
  | nil => exact absurd rfl h
  | cons f rest =>
    show 0 < file_render_height s f + (rest.map (file_render_height s)).sum
    have := file_render_height_pos s f
    omega

theorem reloadTarget_lt (a : App) (nf : List DiffFile) (hne : nf ≠ []) :
    reloadTarget a nf < nf.length := by
  have hlen : 0 < nf.length := by
    cases nf with
    | nil => exact absurd rfl hne
    | cons _ _ => simp
  unfold reloadTarget
  cases (a.diff_files.get? a.diff_state.current_file_idx).map (fun f => f.path) with
  | none =>
    show min a.diff_state.current_file_idx (nf.length - 1) < nf.length
    omega
  | some p =>
    show (match position (fun f => decide (f.path = p)) nf with
      | some i => i
      | none => min a.diff_state.current_file_idx (nf.length - 1)) < nf.length
    cases hpos : position (fun f => decide (f.path = p)) nf with
    | none =>
      show min a.diff_state.current_file_idx (nf.length - 1) < nf.length
      omega
    | some i =>
      show i < nf.length
      exact position_lt_length _ _ _ hpos

/-- C5: for a non-empty new snapshot, `reload` ingests every new path into
the session, replaces the file list, resolves the target index by path
match (clamping the previous index when the path is gone), re-derives the
cursor as `file_scroll_offset(target) + min(previous file-relative offset,
new file height - 1)`, and sets the scroll offset to
`cursor - min(previous viewport offset, viewport_height - 1)` clamped into
`[0, total_lines() - 1]` before re-establishing viewport containment
(the `ensureScrollVal` adjustment). -/
theorem reload_spec (a : App) (nf : List DiffFile) (hne : nf ≠ []) :
    (a.reload nf).session = reloadSession a nf ∧
    (a.reload nf).diff_files = nf ∧
    reloadTarget a nf < nf.length ∧
    (a.reload nf).diff_state.cursor_line =
      calculate_file_scroll_offset (reloadSession a nf) nf (reloadTarget a nf) +
        min (if a.diff_files.isEmpty then 0
             else a.diff_state.cursor_line -
               calculate_file_scroll_offset a.session a.diff_files
                 a.diff_state.current_file_idx)
          (file_render_height (reloadSession a nf)
            ((nf.get? (reloadTarget a nf)).getD dummyFile) - 1) ∧
    (a.reload nf).diff_state.scroll_offset =
      ensureScrollVal (a.reload nf).diff_state.cursor_line
        (min ((a.reload nf).diff_state.cursor_line -
            min (a.diff_state.cursor_line - a.diff_state.scroll_offset)
              (max a.diff_state.viewport_height 1 - 1))
          (total_lines (reloadSession a nf) nf - 1))
        a.diff_state.viewport_height := by
  have hne' : nf.isEmpty = false := by
    cases nf with
    | nil => exact absurd rfl hne
    | cons _ _ => rfl
  have htlt := reloadTarget_lt a nf hne
  have htot : ¬ total_lines (reloadSession a nf) nf = 0 := by
    have := total_lines_pos (reloadSession a nf) nf hne
    omega
  unfold App.reload
  simp only [hne', Bool.false_eq_true, if_false, App.jump_to_file]
  rw [if_pos htlt, if_neg htot]
  refine ⟨?_, ?_, htlt, ?_, ?_⟩
  · rw [update_session_eq]
    rfl
  · rw [update_files_eq]
    rfl
  · rw [update_cursor_eq, ensure_cursor_eq]
  · rw [update_scroll_eq, ensure_scroll_eq, update_cursor_eq, ensure_cursor_eq]

/-! ## Witnesses: the hypothesis-bearing theorems applied at concrete
states -/

/-- `app4` with the cursor on the diff line (flattened row 2). -/
def app3 : App := { app4 with diff_state := { app4.diff_state with cursor_line := 2 } }

/-- A break-free New-side line comment. -/
def comment6 : Comment := { content := "hello", comment_type := CommentType.Note, side := some LineSide.New }

/-- Counterexample to C6 as stated: adding a line comment to the
unreviewed file of `app7` leaves `total_lines()` at 4 (its
`file_render_height` ignores comment blocks), so the total does not grow
by the comment's display height 3. -/
theorem add_line_comment_total_cex :
    comment_display_lines comment6 = 3 ∧
    total_lines (app7.add_line_comment_at "a" 1 comment6).session
        (app7.add_line_comment_at "a" 1 comment6).diff_files =
      total_lines app7.session app7.diff_files ∧
    ¬ total_lines (app7.add_line_comment_at "a" 1 comment6).session
          (app7.add_line_comment_at "a" 1 comment6).diff_files =
        total_lines app7.session app7.diff_files + comment_display_lines comment6 := by
  decide

theorem ops_viewport_containment_witness :
    0 < app7.diff_state.viewport_height ∧ viewportContainment (app7.cursor_down 1) :=
  ⟨by decide,
    (ops_viewport_containment app7 1 0 [] (by decide) ⟨by decide, by decide⟩).1⟩

theorem file_heights_witness :
    total_lines app7.toggle_reviewed.session app7.toggle_reviewed.diff_files =
      total_lines app7.session app7.diff_files -
        (file_render_height app7.session file7 - 1) :=
  (file_heights_and_reviewed_collapse app7 file7 review7 (by decide) (by decide) (by decide)
    (by decide)).2.2.1

theorem get_line_at_cursor_witness :
    app3.get_line_at_cursor.isSome = true ↔
      ∃ d, (flattenRows app3).get? app3.diff_state.cursor_line = some (Row.diffLine d) :=
  (get_line_at_cursor_spec app3 (by decide)).1

theorem reload_spec_witness :
    ([file7] ≠ ([] : List DiffFile)) ∧ (app7.reload [file7]).diff_files = [file7] :=
  ⟨by decide, (reload_spec app7 [file7] (by decide)).2.1⟩

theorem add_line_comment_witness :
    comment_display_lines comment6 = 3 :=
  (add_line_comment_total_unchanged app7 "a" 1 comment6 (by decide)).2

theorem hunk_nav_witness :
    app7.next_hunk.diff_state.cursor_line ∈ headerIdxs (approxRows app7) 0 :=
  ((hunk_nav_spec app7).1 ⟨2, by decide, by decide⟩).1

theorem cursor_round_trip_witness :
    (applyMoves app8 [CursorMove.down 1, CursorMove.up 1]).diff_state.cursor_line =
      app8.diff_state.cursor_line :=
  cursor_round_trip app8 [CursorMove.down 1, CursorMove.up 1] (by decide)
    (by
      intro k
      match k with
      | 0 => exact ⟨by decide, by decide⟩
      | 1 => exact ⟨by decide, by decide⟩
      | n + 2 =>
        have h : List.take (n + 2) [CursorMove.down 1, CursorMove.up 1] =
            [CursorMove.down 1, CursorMove.up 1] := by
          show CursorMove.down 1 :: CursorMove.up 1 :: List.take n [] = _
          rw [List.take_nil]
        rw [h]
        exact ⟨by decide, by decide⟩)
    (by decide)

end Tuicr
